import Mathlib

/-!
Verification of a boundary-tag best-fit memory allocator (`myalloc.c`).

The arena is modelled as a map from byte offsets to the `int` word stored
at that offset (`Mem`).  All accesses the allocator performs are whole-word
reads and writes at byte offsets that, in every consistent arena state, are
at least one word apart, so the map model coincides with the byte-level
behaviour of the C code.  `sizeof(int)` is 4 bytes throughout.
-/

/-- Memory of the arena: the word stored at each byte offset. -/
def Mem : Type := Nat → Int

/-- Write the word `v` at byte offset `o`. -/
def writeWord (m : Mem) (o : Nat) (v : Int) : Mem :=
  fun x => if x = o then v else m x

@[simp] theorem writeWord_same (m : Mem) (o : Nat) (v : Int) :
    writeWord m o v o = v := by
  simp [writeWord]

theorem writeWord_other (m : Mem) (o : Nat) (v : Int) {x : Nat} (h : x ≠ o) :
    writeWord m o v x = m x := by
  simp [writeWord, h]

/-- The allocator state: the pool size `MEMORY_SIZE` (the `end` pointer sits
at byte offset `memSize` from `mem`) and the memory contents. -/
structure Arena where
  memSize : Nat
  mem : Mem

@[simp] theorem Arena_mem_mk (msz : Nat) (m : Mem) : (Arena.mk msz m).mem = m :=
  rfl

@[simp] theorem Arena_memSize_mk (msz : Nat) (m : Mem) :
    (Arena.mk msz m).memSize = msz := rfl

/-- Embeds `init_myalloc`: write the header word `MEMORY_SIZE` at offset 0 and
the footer word `MEMORY_SIZE` at offset `MEMORY_SIZE - sizeof(int)`.  The
freshly `malloc`ed pool has arbitrary contents `m0`. -/
def init_myalloc (cap : Nat) (m0 : Mem) : Arena :=
  { memSize := cap
    mem := writeWord (writeWord m0 0 (cap : Int)) (cap - 4) (cap : Int) }

/-- Embeds `get_header`: from a footer at offset `f`, move back
`abs(*footer)` bytes and forward one word. -/
def get_header (m : Mem) (f : Nat) : Nat :=
  f + 4 - (m f).natAbs

/-- Embeds `get_footer`: from a header at offset `h`, move forward
`abs(*header)` bytes and back one word. -/
def get_footer (m : Mem) (h : Nat) : Nat :=
  h + (m h).natAbs - 4

/-- Embeds `get_next_header`: offset of the next block's header, or `none`
when the arena's `end` has been reached or passed. -/
def get_next_header (a : Arena) (h : Nat) : Option Nat :=
  let n := h + (a.mem h).natAbs
  if a.memSize ≤ n then none else some n

/-- Embeds the `while` loop of `best_fit_block`.  The loop state is the
current header pointer (`none` once `get_next_header` returns null) and the
best candidate found so far (`result`).  The C loop needs no fuel because
block sizes are positive in every reachable state; the fuel only bounds the
number of iterations and is chosen large enough to be irrelevant. -/
def bestFitLoop (a : Arena) (size : Int) :
    Nat → Option Nat → Option Nat → Option Nat
  | 0, _, result => result
  | _ + 1, none, result => result
  | fuel + 1, some h, result =>
      let v := a.mem h
      let result' :=
        if size + 8 ≤ (v.natAbs : Int) ∧ 0 < v then
          match result with
          | none => some h
          | some r => if v.natAbs < (a.mem r).natAbs then some h else some r
        else result
      bestFitLoop a size fuel (get_next_header a h) result'

/-- Embeds `best_fit_block`: scan from the start of the pool, keeping the
smallest free block whose size is at least `size + 8`. -/
def best_fit_block (a : Arena) (size : Int) : Option Nat :=
  bestFitLoop a size (a.memSize + 1) (some 0) none

/-- Result of `myalloc`: the returned payload pointer (`none` for the null
return), the arena after the call, and the size reported on `stderr` when
the request cannot be serviced. -/
structure AllocResult where
  ptr : Option Nat
  arena : Arena
  diag : Option Int

@[simp] theorem AllocResult_ptr_mk (x : Option Nat) (ar : Arena)
    (d : Option Int) : (AllocResult.mk x ar d).ptr = x := rfl

@[simp] theorem AllocResult_arena_mk (x : Option Nat) (ar : Arena)
    (d : Option Int) : (AllocResult.mk x ar d).arena = ar := rfl

@[simp] theorem AllocResult_diag_mk (x : Option Nat) (ar : Arena)
    (d : Option Int) : (AllocResult.mk x ar d).diag = d := rfl

/-- Embeds `myalloc`.  On success the chosen block is split when
`abs(*header) >= size + 4*sizeof(int)`, writing the negated allocated size
into the new header and footer and the positive remainder size into the
remainder block's header and footer; otherwise the whole block's header and
footer are negated in place.  Each `get_footer` call reads the header value
written just before it, exactly as the C code does. -/
def myalloc (a : Arena) (size : Int) : AllocResult :=
  match best_fit_block a size with
  | none => ⟨none, a, some size⟩
  | some h =>
      if size + 4 * 4 ≤ ((a.mem h).natAbs : Int) then
        let origSize : Int := (a.mem h).natAbs
        let m1 := writeWord a.mem h (-(size + 2 * 4))
        let f1 := get_footer m1 h
        let m2 := writeWord m1 f1 (-(size + 2 * 4))
        let h2 := f1 + 4
        let m3 := writeWord m2 h2 (origSize - (size + 2 * 4))
        let f2 := get_footer m3 h2
        let m4 := writeWord m3 f2 (origSize - (size + 2 * 4))
        ⟨some (h + 4), ⟨a.memSize, m4⟩, none⟩
      else
        let m1 := writeWord a.mem h (-(a.mem h))
        let f1 := get_footer m1 h
        let m2 := writeWord m1 f1 (-(m1 f1))
        ⟨some (h + 4), ⟨a.memSize, m2⟩, none⟩

/-- Embeds `back_coalesce`: merge the just-freed block whose header is at
`h` with the free block to its left; returns the new memory and the header
offset returned by the C function. -/
def back_coalesce (m : Mem) (h : Nat) : Mem × Nat :=
  let right := m h
  let fL := h - 4
  let left := m fL
  let hL := get_header m fL
  let m1 := writeWord m hL (m hL + right)
  let f := get_footer m1 hL
  let m2 := writeWord m1 f (m1 f + left)
  (m2, get_header m2 f)

/-- Body of `fwd_coalesce` from the point where `get_next_header` has been
computed; `left` holds the value read from the current header before the
call.  Split out so each step of the C function can be rewritten separately
in proofs. -/
def fwdCont (a : Arena) (left : Int) : Option Nat → Mem
  | none => a.mem
  | some n =>
      let right := a.mem n
      let f := n - 4
      let hh := get_header a.mem f
      let m1 := writeWord a.mem hh (a.mem hh + right)
      let f2 := get_footer m1 hh
      writeWord m1 f2 (m1 f2 + left)

/-- Embeds `fwd_coalesce`: merge the block whose header is at `h` with the
free block to its right.  The C function dereferences the next header
unconditionally; its callers guarantee it exists, so the `none` branch of
`fwdCont` is unreachable in any state this development considers. -/
def fwd_coalesce (a : Arena) (h : Nat) : Mem :=
  fwdCont a (a.mem h) (get_next_header a h)

/-- Tail of `myfree` once `get_next_header` of the (possibly back-coalesced)
block has been computed: coalesce with a free block to the right. -/
def myfreeCont2 (msz : Nat) (m3 : Mem) : Option Nat → Arena
  | none => ⟨msz, m3⟩
  | some n =>
      if 0 < m3 n then
        let f' := n - 4
        let h3 := get_header m3 f'
        ⟨msz, fwd_coalesce ⟨msz, m3⟩ h3⟩
      else ⟨msz, m3⟩

/-- Tail of `myfree` after the freed block's tags have been flipped and the
back-coalescing step has produced memory `m3` and header offset `h2`. -/
def myfreeCont (msz : Nat) : Mem × Nat → Arena
  | (m3, h2) => myfreeCont2 msz m3 (get_next_header ⟨msz, m3⟩ h2)

/-- Embeds `myfree`: negate the block's header and footer back to positive,
then coalesce with a free left neighbour and a free right neighbour. -/
def myfree (a : Arena) (p : Nat) : Arena :=
  let h0 := p - 4
  let m1 := writeWord a.mem h0 (-(a.mem h0))
  let f := get_footer m1 h0
  let m2 := writeWord m1 f (-(m1 f))
  let h1 := get_header m2 f
  myfreeCont a.memSize
    (if h1 ≠ 0 ∧ 0 < m2 (h1 - 4) then back_coalesce m2 h1 else (m2, h1))

/-! ## The block-list abstraction

A consistent arena segment is described by the list of its blocks' signed
sizes: positive = free, negative = allocated, magnitude = total block size
in bytes.  `checkLayout m o bs e` checks that the blocks `bs` tile the
segment `[o, e)` exactly: each block's header word sits at its start, its
footer word one word before its end, both holding the signed size, blocks
are at least two words (8 bytes) large, consecutive blocks are adjacent,
and the last block ends exactly at `e`. -/

/-- Total number of bytes covered by the blocks `bs`. -/
def sumSizes (bs : List Int) : Nat := (bs.map Int.natAbs).sum

@[simp] theorem sumSizes_nil : sumSizes [] = 0 := rfl

@[simp] theorem sumSizes_cons (b : Int) (bs : List Int) :
    sumSizes (b :: bs) = b.natAbs + sumSizes bs := by
  simp [sumSizes]

@[simp] theorem sumSizes_append (bs1 bs2 : List Int) :
    sumSizes (bs1 ++ bs2) = sumSizes bs1 + sumSizes bs2 := by
  simp [sumSizes]

/-- Decidable check that the blocks `bs` tile the memory segment `[o, e)`. -/
def checkLayout (m : Mem) : Nat → List Int → Nat → Bool
  | o, [], e => o == e
  | o, b :: bs, e =>
      decide (8 ≤ b.natAbs) && (m o == b) && (m (o + b.natAbs - 4) == b) &&
      checkLayout m (o + b.natAbs) bs e

/-- Propositional form of `checkLayout`. -/
def LayoutSeg (m : Mem) (o : Nat) (bs : List Int) (e : Nat) : Prop :=
  checkLayout m o bs e = true

instance (m : Mem) (o : Nat) (bs : List Int) (e : Nat) :
    Decidable (LayoutSeg m o bs e) := by
  unfold LayoutSeg; infer_instance

theorem layoutSeg_nil {m : Mem} {o e : Nat} : LayoutSeg m o [] e ↔ o = e := by
  simp [LayoutSeg, checkLayout]

theorem layoutSeg_cons {m : Mem} {o e : Nat} {b : Int} {bs : List Int} :
    LayoutSeg m o (b :: bs) e ↔
      8 ≤ b.natAbs ∧ m o = b ∧ m (o + b.natAbs - 4) = b ∧
        LayoutSeg m (o + b.natAbs) bs e := by
  simp [LayoutSeg, checkLayout, and_assoc]

theorem layoutSeg_sum {m : Mem} {o e : Nat} {bs : List Int}
    (h : LayoutSeg m o bs e) : o + sumSizes bs = e := by
  induction bs generalizing o with
  | nil => simpa [layoutSeg_nil] using h
  | cons b bs ih =>
      rw [layoutSeg_cons] at h
      have := ih h.2.2.2
      simp only [sumSizes_cons]
      omega

theorem layoutSeg_min {m : Mem} {o e : Nat} {bs : List Int}
    (h : LayoutSeg m o bs e) : ∀ b ∈ bs, 8 ≤ b.natAbs := by
  induction bs generalizing o with
  | nil => simp
  | cons b bs ih =>
      rw [layoutSeg_cons] at h
      intro c hc
      rcases List.mem_cons.1 hc with rfl | hc
      · exact h.1
      · exact ih h.2.2.2 c hc

theorem layoutSeg_append {m : Mem} {o e : Nat} {bs1 bs2 : List Int} :
    LayoutSeg m o (bs1 ++ bs2) e ↔
      LayoutSeg m o bs1 (o + sumSizes bs1) ∧
        LayoutSeg m (o + sumSizes bs1) bs2 e := by
  induction bs1 generalizing o with
  | nil => simp [layoutSeg_nil]
  | cons b bs1 ih =>
      simp only [List.cons_append, layoutSeg_cons, sumSizes_cons, ih, Nat.add_assoc]
      tauto

/-- A layout only constrains the words of its own segment: any memory that
agrees with `m` on `[o, o + sumSizes bs)` carries the same layout. -/
theorem layoutSeg_congr {m m' : Mem} {o e : Nat} {bs : List Int}
    (h : LayoutSeg m o bs e)
    (hm : ∀ x, o ≤ x → x < o + sumSizes bs → m' x = m x) :
    LayoutSeg m' o bs e := by
  induction bs generalizing o with
  | nil => simpa [layoutSeg_nil] using h
  | cons b bs ih =>
      rw [layoutSeg_cons] at h ⊢
      obtain ⟨h1, h2, h3, h4⟩ := h
      refine ⟨h1, ?_, ?_, ih h4 ?_⟩
      · rw [hm o (Nat.le_refl o) (by simp only [sumSizes_cons]; omega)]
        exact h2
      · rw [hm (o + b.natAbs - 4) (by omega) (by simp only [sumSizes_cons]; omega)]
        exact h3
      · intro x hx1 hx2
        exact hm x (by omega) (by simp only [sumSizes_cons]; omega)

/-- The layout of a segment is unique: the traversal is deterministic. -/
theorem layoutSeg_unique {m : Mem} {o e : Nat} {bs bs' : List Int}
    (h1 : LayoutSeg m o bs e) (h2 : LayoutSeg m o bs' e) : bs = bs' := by
  induction bs generalizing bs' o with
  | nil =>
      rw [layoutSeg_nil] at h1
      subst h1
      cases bs' with
      | nil => rfl
      | cons c t =>
          rw [layoutSeg_cons] at h2
          have := layoutSeg_sum h2.2.2.2
          omega
  | cons b bs ih =>
      cases bs' with
      | nil =>
          rw [layoutSeg_nil] at h2
          subst h2
          rw [layoutSeg_cons] at h1
          have := layoutSeg_sum h1.2.2.2
          omega
      | cons c t =>
          rw [layoutSeg_cons] at h1 h2
          have hb : b = c := by rw [← h1.2.1, h2.2.1]
          subst hb
          rw [ih h1.2.2.2 h2.2.2.2]

/-- Two decompositions of the same block list that select blocks at the
same byte offset select the same block. -/
theorem decomp_unique {bs1 bs1' bs2 bs2' : List Int} {b b' : Int}
    (hmin : ∀ c ∈ bs1, 1 ≤ c.natAbs)
    (hmin' : ∀ c ∈ bs1' , 1 ≤ c.natAbs)
    (heq : bs1 ++ b :: bs2 = bs1' ++ b' :: bs2')
    (hsum : sumSizes bs1 = sumSizes bs1') :
    bs1 = bs1' ∧ b = b' ∧ bs2 = bs2' := by
  induction bs1 generalizing bs1' with
  | nil =>
      cases bs1' with
      | nil => simpa using heq
      | cons c t =>
          exfalso
          have hc : 1 ≤ c.natAbs := hmin' c (List.mem_cons_self c t)
          simp only [sumSizes_nil, sumSizes_cons] at hsum
          omega
  | cons a' bs1 ih =>
      cases bs1' with
      | nil =>
          exfalso
          have hc : 1 ≤ a'.natAbs := hmin a' (List.mem_cons_self a' bs1)
          simp only [sumSizes_nil, sumSizes_cons] at hsum
          omega
      | cons c t =>
          simp only [List.cons_append, List.cons.injEq] at heq
          obtain ⟨rfl, heq⟩ := heq
          simp only [sumSizes_cons] at hsum
          have hsum' : sumSizes bs1 = sumSizes t := by omega
          obtain ⟨ht, hb, h2⟩ :=
            ih (fun d hd => hmin d (List.mem_cons_of_mem _ hd))
              (fun d hd => hmin' d (List.mem_cons_of_mem _ hd)) heq hsum'
          exact ⟨by rw [ht], hb, h2⟩

/-! ## Best-fit search, abstractly -/

/-- Eligibility test of `best_fit_block`: the block is free and its total
size is at least `size + 2*sizeof(int)` bytes. -/
def elig (size b : Int) : Prop := size + 8 ≤ (b.natAbs : Int) ∧ 0 < b

instance (size b : Int) : Decidable (elig size b) := by
  unfold elig; infer_instance

/-- The best-fit scan folded over the abstract block list.  The accumulator
holds the offset and signed size of the best candidate so far. -/
def bestAbs (size : Int) : List Int → Nat → Option (Nat × Int) → Option (Nat × Int)
  | [], _, acc => acc
  | b :: bs, o, acc =>
      bestAbs size bs (o + b.natAbs)
        (if size + 8 ≤ (b.natAbs : Int) ∧ 0 < b then
           match acc with
           | none => some (o, b)
           | some pr => if b.natAbs < pr.2.natAbs then some (o, b) else some pr
         else acc)

theorem bestFitLoop_none (a : Arena) (size : Int) :
    ∀ (fuel : Nat) (r : Option Nat), bestFitLoop a size fuel none r = r := by
  intro fuel r
  cases fuel <;> rfl

theorem length_le_sumSizes {bs : List Int} (h : ∀ b ∈ bs, 1 ≤ b.natAbs) :
    bs.length ≤ sumSizes bs := by
  induction bs with
  | nil => simp
  | cons b bs ih =>
      have h1 := h b (List.mem_cons_self b bs)
      have h2 := ih fun c hc => h c (List.mem_cons_of_mem _ hc)
      simp only [List.length_cons, sumSizes_cons]
      omega


theorem bestAbs_nilE (size : Int) (o : Nat) (acc : Option (Nat × Int)) :
    bestAbs size [] o acc = acc := rfl

theorem bestAbs_consE (size b : Int) (bs : List Int) (o : Nat)
    (acc : Option (Nat × Int)) :
    bestAbs size (b :: bs) o acc =
      bestAbs size bs (o + b.natAbs)
        (if size + 8 ≤ (b.natAbs : Int) ∧ 0 < b then
           match acc with
           | none => some (o, b)
           | some pr => if b.natAbs < pr.2.natAbs then some (o, b) else some pr
         else acc) := rfl

theorem bestFitLoop_succ (a : Arena) (size : Int) (fuel h : Nat)
    (result : Option Nat) :
    bestFitLoop a size (fuel + 1) (some h) result =
      bestFitLoop a size fuel (get_next_header a h)
        (if size + 8 ≤ (((a.mem h).natAbs : Nat) : Int) ∧ 0 < a.mem h then
           match result with
           | none => some h
           | some r => if (a.mem h).natAbs < (a.mem r).natAbs then some h
               else some r
         else result) := rfl

/-- One step of the concrete scan computes one step of the abstract fold,
given that the accumulated candidate pointer holds its recorded value. -/
theorem bestStep_eq (a : Arena) (size : Int) (o : Nat) (acc : Option (Nat × Int))
    (hacc : ∀ q v, acc = some (q, v) → a.mem q = v) :
    (if size + 8 ≤ (((a.mem o).natAbs : Nat) : Int) ∧ 0 < a.mem o then
       match Option.map Prod.fst acc with
       | none => some o
       | some r => if (a.mem o).natAbs < (a.mem r).natAbs then some o else some r
     else Option.map Prod.fst acc)
    = Option.map Prod.fst
       (if size + 8 ≤ (((a.mem o).natAbs : Nat) : Int) ∧ 0 < a.mem o then
          match acc with
          | none => some (o, a.mem o)
          | some pr => if (a.mem o).natAbs < pr.2.natAbs then some (o, a.mem o)
              else some pr
        else acc) := by
  by_cases hc : size + 8 ≤ (((a.mem o).natAbs : Nat) : Int) ∧ 0 < a.mem o
  · rw [if_pos hc, if_pos hc]
    cases acc with
    | none => rfl
    | some pr =>
        obtain ⟨q, w⟩ := pr
        have hq : a.mem q = w := hacc q w rfl
        simp only [Option.map_some', hq]
        by_cases hlt : (a.mem o).natAbs < w.natAbs
        · rw [if_pos hlt, if_pos hlt]; rfl
        · rw [if_neg hlt, if_neg hlt]; rfl
  · rw [if_neg hc, if_neg hc]

/-- The abstract fold's step preserves the accumulator's read invariant. -/
theorem bestStep_acc (a : Arena) (size : Int) (o : Nat) (acc : Option (Nat × Int))
    (hacc : ∀ q v, acc = some (q, v) → a.mem q = v) :
    ∀ q v,
      (if size + 8 ≤ (((a.mem o).natAbs : Nat) : Int) ∧ 0 < a.mem o then
         match acc with
         | none => some (o, a.mem o)
         | some pr => if (a.mem o).natAbs < pr.2.natAbs then some (o, a.mem o)
             else some pr
       else acc) = some (q, v) → a.mem q = v := by
  intro q v h
  by_cases hc : size + 8 ≤ (((a.mem o).natAbs : Nat) : Int) ∧ 0 < a.mem o
  · rw [if_pos hc] at h
    cases acc with
    | none =>
        simp only [Option.some.injEq, Prod.mk.injEq] at h
        rw [← h.1, h.2]
    | some pr =>
        obtain ⟨q0, w0⟩ := pr
        have h' : (if (a.mem o).natAbs < w0.natAbs then some (o, a.mem o)
            else some (q0, w0)) = some (q, v) := h
        by_cases hlt : (a.mem o).natAbs < w0.natAbs
        · rw [if_pos hlt] at h'
          simp only [Option.some.injEq, Prod.mk.injEq] at h'
          rw [← h'.1, h'.2]
        · rw [if_neg hlt] at h'
          simp only [Option.some.injEq, Prod.mk.injEq] at h'
          rw [← h'.1, ← h'.2]
          exact hacc q0 w0 rfl
  · rw [if_neg hc] at h
    exact hacc q v h

/-- The concrete scan loop computes the abstract best-fit fold, provided the
loop starts at a block boundary of a consistent layout and has fuel for
every block. -/
theorem bestFitLoop_eq (a : Arena) (size : Int) :
    ∀ (bs : List Int) (b : Int) (o fuel : Nat) (acc : Option (Nat × Int)),
      LayoutSeg a.mem o (b :: bs) a.memSize →
      bs.length < fuel →
      (∀ q v, acc = some (q, v) → a.mem q = v) →
      bestFitLoop a size fuel (some o) (Option.map Prod.fst acc) =
        Option.map Prod.fst (bestAbs size (b :: bs) o acc) := by
  intro bs
  induction bs with
  | nil =>
      intro b o fuel acc hl hfuel hacc
      obtain ⟨fuel, rfl⟩ : ∃ k, fuel = k + 1 := ⟨fuel - 1, by omega⟩
      rw [layoutSeg_cons] at hl
      obtain ⟨h8, hv, hf, htail⟩ := hl
      subst hv
      rw [layoutSeg_nil] at htail
      have hnext : get_next_header a o = none := by
        simp [get_next_header, htail]
      rw [bestFitLoop_succ, bestAbs_consE, bestStep_eq a size o acc hacc,
        hnext, bestFitLoop_none, bestAbs_nilE]
  | cons c t ih =>
      intro b o fuel acc hl hfuel hacc
      obtain ⟨fuel, rfl⟩ : ∃ k, fuel = k + 1 := ⟨fuel - 1, by omega⟩
      rw [layoutSeg_cons] at hl
      obtain ⟨h8, hv, hf, htail⟩ := hl
      subst hv
      have hsum := layoutSeg_sum htail
      have hc8 : 8 ≤ c.natAbs := layoutSeg_min htail c (List.mem_cons_self c t)
      have hnext : get_next_header a o = some (o + (a.mem o).natAbs) := by
        simp only [get_next_header]
        rw [if_neg (by simp only [sumSizes_cons] at hsum; omega)]
      have hfuel' : t.length < fuel := by
        simp only [List.length_cons] at hfuel; omega
      rw [bestFitLoop_succ, bestAbs_consE, bestStep_eq a size o acc hacc, hnext]
      exact ih c (o + (a.mem o).natAbs) fuel _ htail hfuel'
        (bestStep_acc a size o acc hacc)

/-- The fold of `best_fit_block` over the whole arena. -/
theorem best_fit_block_eq {a : Arena} {bs : List Int} (size : Int)
    (hl : LayoutSeg a.mem 0 bs a.memSize) (hne : bs ≠ []) :
    best_fit_block a size = Option.map Prod.fst (bestAbs size bs 0 none) := by
  cases bs with
  | nil => exact absurd rfl hne
  | cons b t =>
      have hsum := layoutSeg_sum hl
      have hmin := layoutSeg_min hl
      have hlen : t.length < a.memSize + 1 := by
        have := @length_le_sumSizes (b :: t) fun c hc => by
          have := hmin c hc; omega
        simp only [List.length_cons] at this
        omega
      have := bestFitLoop_eq a size t b 0 (a.memSize + 1) none hl hlen
        (by rintro q v h; cases h)
      simpa [best_fit_block] using this

/-- The abstract fold returns `none` exactly when the accumulator is empty
and no block of the list is eligible. -/
theorem bestAbs_eq_none (size : Int) :
    ∀ (bs : List Int) (o : Nat) (acc : Option (Nat × Int)),
      bestAbs size bs o acc = none ↔ acc = none ∧ ∀ b ∈ bs, ¬ elig size b := by
  intro bs
  induction bs with
  | nil =>
      intro o acc
      rw [bestAbs_nilE]
      simp
  | cons b bs ih =>
      intro o acc
      rw [bestAbs_consE]
      by_cases hb : size + 8 ≤ (b.natAbs : Int) ∧ 0 < b
      · rw [if_pos hb]
        constructor
        · intro h
          exfalso
          cases acc with
          | none =>
              have h' : bestAbs size bs (o + b.natAbs) (some (o, b)) = none := h
              rcases (ih _ _).1 h' with ⟨h1, _⟩
              cases h1
          | some pr =>
              have h' : bestAbs size bs (o + b.natAbs)
                  (if b.natAbs < pr.2.natAbs then some (o, b) else some pr)
                    = none := h
              by_cases hlt : b.natAbs < pr.2.natAbs
              · rw [if_pos hlt] at h'
                rcases (ih _ _).1 h' with ⟨h1, _⟩
                cases h1
              · rw [if_neg hlt] at h'
                rcases (ih _ _).1 h' with ⟨h1, _⟩
                cases h1
        · rintro ⟨_, h2⟩
          exact absurd hb (h2 b (List.mem_cons_self b bs))
      · rw [if_neg hb, ih]
        constructor
        · rintro ⟨h1, h2⟩
          refine ⟨h1, ?_⟩
          intro c hc
          rcases List.mem_cons.1 hc with rfl | hc
          · exact hb
          · exact h2 c hc
        · rintro ⟨h1, h2⟩
          exact ⟨h1, fun c hc => h2 c (List.mem_cons_of_mem _ hc)⟩

/-- Complete characterisation of a successful abstract best-fit fold: the
result either is the accumulator (and no listed eligible block strictly
beats it), or is an eligible block of the list, strictly smaller than the
accumulator and than every eligible block before it, and at least as small
as every eligible block after it. -/
theorem bestAbs_spec (size : Int) :
    ∀ (bs : List Int) (o : Nat) (acc : Option (Nat × Int)) (q : Nat) (v : Int),
      bestAbs size bs o acc = some (q, v) →
      (acc = some (q, v) ∧ ∀ c ∈ bs, elig size c → v.natAbs ≤ c.natAbs)
      ∨ (∃ bs1 bs2, bs = bs1 ++ v :: bs2 ∧ q = o + sumSizes bs1 ∧ elig size v
          ∧ (∀ q0 v0, acc = some (q0, v0) → v.natAbs < v0.natAbs)
          ∧ (∀ c ∈ bs1, elig size c → v.natAbs < c.natAbs)
          ∧ (∀ c ∈ bs2, elig size c → v.natAbs ≤ c.natAbs)) := by
  intro bs
  induction bs with
  | nil =>
      intro o acc q v h
      rw [bestAbs_nilE] at h
      exact Or.inl ⟨h, by simp⟩
  | cons b bs ih =>
      intro o acc q v h
      rw [bestAbs_consE] at h
      by_cases hb : size + 8 ≤ (b.natAbs : Int) ∧ 0 < b
      · rw [if_pos hb] at h
        cases acc with
        | none =>
            have h' : bestAbs size bs (o + b.natAbs) (some (o, b)) = some (q, v) := h
            rcases ih (o + b.natAbs) (some (o, b)) q v h' with ⟨h1, h2⟩ |
              ⟨bs1, bs2, rfl, hq, he, hlt, hfst, hrest⟩
            · obtain ⟨rfl, rfl⟩ : o = q ∧ b = v := by
                simpa [Prod.ext_iff] using h1
              exact Or.inr ⟨[], bs, rfl, by simp, hb,
                by rintro q0 v0 ⟨⟩, by simp, h2⟩
            · refine Or.inr ⟨b :: bs1, bs2, rfl, ?_, he,
                by rintro q0 v0 ⟨⟩, ?_, hrest⟩
              · rw [hq, sumSizes_cons]; omega
              · intro c hc
                rcases List.mem_cons.1 hc with rfl | hc
                · exact fun _ => hlt o c rfl
                · exact hfst c hc
        | some pr =>
            obtain ⟨q0, w0⟩ := pr
            have h' : bestAbs size bs (o + b.natAbs)
                (if b.natAbs < w0.natAbs then some (o, b) else some (q0, w0))
                  = some (q, v) := h
            by_cases hlt2 : b.natAbs < w0.natAbs
            · rw [if_pos hlt2] at h'
              rcases ih (o + b.natAbs) (some (o, b)) q v h' with ⟨h1, h2⟩ |
                ⟨bs1, bs2, rfl, hq, he, hlt, hfst, hrest⟩
              · obtain ⟨rfl, rfl⟩ : o = q ∧ b = v := by
                  simpa [Prod.ext_iff] using h1
                refine Or.inr ⟨[], bs, rfl, by simp, hb, ?_, by simp, h2⟩
                rintro q1 v1 hv1
                obtain ⟨rfl, rfl⟩ : q0 = q1 ∧ w0 = v1 := by
                  simpa [Prod.ext_iff] using hv1
                exact hlt2
              · refine Or.inr ⟨b :: bs1, bs2, rfl, ?_, he, ?_, ?_, hrest⟩
                · rw [hq, sumSizes_cons]; omega
                · rintro q1 v1 hv1
                  obtain ⟨rfl, rfl⟩ : q0 = q1 ∧ w0 = v1 := by
                    simpa [Prod.ext_iff] using hv1
                  exact lt_trans (hlt o b rfl) hlt2
                · intro c hc
                  rcases List.mem_cons.1 hc with rfl | hc
                  · exact fun _ => hlt o c rfl
                  · exact hfst c hc
            · rw [if_neg hlt2] at h'
              rcases ih (o + b.natAbs) (some (q0, w0)) q v h' with ⟨h1, h2⟩ |
                ⟨bs1, bs2, rfl, hq, he, hlt, hfst, hrest⟩
              · obtain ⟨rfl, rfl⟩ : q0 = q ∧ w0 = v := by
                  simpa [Prod.ext_iff] using h1
                refine Or.inl ⟨rfl, ?_⟩
                intro c hc
                rcases List.mem_cons.1 hc with rfl | hc
                · exact fun _ => by omega
                · exact h2 c hc
              · refine Or.inr ⟨b :: bs1, bs2, rfl, ?_, he, ?_, ?_, hrest⟩
                · rw [hq, sumSizes_cons]; omega
                · rintro q1 v1 hv1
                  obtain ⟨rfl, rfl⟩ : q0 = q1 ∧ w0 = v1 := by
                    simpa [Prod.ext_iff] using hv1
                  exact hlt q0 w0 rfl
                · intro c hc
                  rcases List.mem_cons.1 hc with rfl | hc
                  · refine fun _ => ?_
                    have := hlt q0 w0 rfl
                    omega
                  · exact hfst c hc
      · rw [if_neg hb] at h
        rcases ih (o + b.natAbs) acc q v h with ⟨h1, h2⟩ |
          ⟨bs1, bs2, rfl, hq, he, hlt, hfst, hrest⟩
        · refine Or.inl ⟨h1, ?_⟩
          intro c hc
          rcases List.mem_cons.1 hc with rfl | hc
          · exact fun hce => absurd hce hb
          · exact h2 c hc
        · refine Or.inr ⟨b :: bs1, bs2, rfl, ?_, he, hlt, ?_, hrest⟩
          · rw [hq, sumSizes_cons]; omega
          · intro c hc
            rcases List.mem_cons.1 hc with rfl | hc
            · exact fun hce => absurd hce hb
            · exact hfst c hc

/-! ## What `myalloc` writes -/

/-- Trace of a successful splitting allocation: when the chosen block at
offset `sumSizes bs1` holds `b` and `b.natAbs ≥ size + 16`, `myalloc`
performs exactly four word writes: negated allocated size into the new
header and footer, remainder size into the remainder block's header and
footer, and returns the payload pointer one word past the chosen header. -/
theorem myalloc_split_eq (a : Arena) (bs1 bs2 : List Int) (b size : Int)
    (hl : LayoutSeg a.mem 0 (bs1 ++ b :: bs2) a.memSize)
    (hs : 0 < size)
    (hfind : best_fit_block a size = some (sumSizes bs1))
    (hsplit : size + 16 ≤ (b.natAbs : Int)) :
    myalloc a size =
      ⟨some (sumSizes bs1 + 4),
        ⟨a.memSize,
          writeWord (writeWord (writeWord (writeWord a.mem
            (sumSizes bs1) (-(size + 2 * 4)))
            (sumSizes bs1 + (size + 8).toNat - 4) (-(size + 2 * 4)))
            (sumSizes bs1 + (size + 8).toNat) ((b.natAbs : Int) - (size + 2 * 4)))
            (sumSizes bs1 + b.natAbs - 4) ((b.natAbs : Int) - (size + 2 * 4))⟩,
        none⟩ := by
  obtain ⟨hl1, hlm⟩ := layoutSeg_append.1 hl
  rw [Nat.zero_add] at hlm
  rw [layoutSeg_cons] at hlm
  obtain ⟨h8, hv, hf, hl3⟩ := hlm
  simp only [myalloc, hfind]
  rw [hv]
  rw [if_pos (by omega)]
  have e1 : get_footer (writeWord a.mem (sumSizes bs1) (-(size + 2 * 4)))
      (sumSizes bs1) = sumSizes bs1 + (size + 8).toNat - 4 := by
    unfold get_footer
    rw [writeWord_same]
    omega
  rw [e1]
  have e2 : sumSizes bs1 + (size + 8).toNat - 4 + 4
      = sumSizes bs1 + (size + 8).toNat := by omega
  rw [e2]
  have e3 : get_footer
      (writeWord (writeWord (writeWord a.mem
        (sumSizes bs1) (-(size + 2 * 4)))
        (sumSizes bs1 + (size + 8).toNat - 4) (-(size + 2 * 4)))
        (sumSizes bs1 + (size + 8).toNat) ((b.natAbs : Int) - (size + 2 * 4)))
      (sumSizes bs1 + (size + 8).toNat) = sumSizes bs1 + b.natAbs - 4 := by
    unfold get_footer
    rw [writeWord_same]
    omega
  rw [e3]

/-- After a splitting allocation the arena's layout replaces the chosen
free block `b` by an allocated block of size `size + 8` followed by a free
remainder block of size `b.natAbs - (size + 8)`. -/
theorem myalloc_split_layout (a : Arena) (bs1 bs2 : List Int) (b size : Int)
    (hl : LayoutSeg a.mem 0 (bs1 ++ b :: bs2) a.memSize)
    (hs : 0 < size)
    (hfind : best_fit_block a size = some (sumSizes bs1))
    (hsplit : size + 16 ≤ (b.natAbs : Int)) :
    LayoutSeg (myalloc a size).arena.mem 0
      (bs1 ++ (-(size + 2 * 4)) :: ((b.natAbs : Int) - (size + 2 * 4)) :: bs2)
      a.memSize := by
  obtain ⟨hl1, hlm⟩ := layoutSeg_append.1 hl
  rw [Nat.zero_add] at hlm
  rw [Nat.zero_add] at hl1
  rw [layoutSeg_cons] at hlm
  obtain ⟨h8, hv, hf, hl3⟩ := hlm
  rw [myalloc_split_eq a bs1 bs2 b size hl hs hfind hsplit]
  have hsN : 9 ≤ (size + 8).toNat := by omega
  have hbN : (size + 8).toNat + 8 ≤ b.natAbs := by omega
  have hns : ((-(size + 2 * 4) : Int)).natAbs = (size + 8).toNat := by omega
  have hrn : (((b.natAbs : Int) - (size + 2 * 4))).natAbs
      = b.natAbs - (size + 8).toNat := by omega
  rw [layoutSeg_append]
  simp only [Nat.zero_add]
  constructor
  · refine layoutSeg_congr hl1 (fun x hx1 hx2 => ?_)
    rw [writeWord_other _ _ _ (by omega), writeWord_other _ _ _ (by omega),
      writeWord_other _ _ _ (by omega), writeWord_other _ _ _ (by omega)]
  · rw [layoutSeg_cons]
    refine ⟨by omega, ?_, ?_, ?_⟩
    · rw [writeWord_other _ _ _ (by omega), writeWord_other _ _ _ (by omega),
        writeWord_other _ _ _ (by omega), writeWord_same]
    · rw [hns]
      rw [writeWord_other _ _ _ (by omega), writeWord_other _ _ _ (by omega),
        writeWord_same]
    · rw [hns, layoutSeg_cons]
      refine ⟨by omega, ?_, ?_, ?_⟩
      · rw [writeWord_other _ _ _ (by omega), writeWord_same]
      · rw [hrn]
        have e4 : sumSizes bs1 + (size + 8).toNat +
            (b.natAbs - (size + 8).toNat) - 4 = sumSizes bs1 + b.natAbs - 4 := by
          omega
        rw [e4, writeWord_same]
      · rw [hrn]
        have e5 : sumSizes bs1 + (size + 8).toNat +
            (b.natAbs - (size + 8).toNat) = sumSizes bs1 + b.natAbs := by omega
        rw [e5]
        refine layoutSeg_congr hl3 (fun x hx1 hx2 => ?_)
        rw [writeWord_other _ _ _ (by omega), writeWord_other _ _ _ (by omega),
          writeWord_other _ _ _ (by omega), writeWord_other _ _ _ (by omega)]

/-- A splitting allocation writes nothing outside the four tag words of the
allocated block and of the remainder block. -/
theorem myalloc_split_frame (a : Arena) (bs1 bs2 : List Int) (b size : Int)
    (hl : LayoutSeg a.mem 0 (bs1 ++ b :: bs2) a.memSize)
    (hs : 0 < size)
    (hfind : best_fit_block a size = some (sumSizes bs1))
    (hsplit : size + 16 ≤ (b.natAbs : Int)) :
    ∀ x, x ≠ sumSizes bs1 → x ≠ sumSizes bs1 + (size + 8).toNat - 4 →
      x ≠ sumSizes bs1 + (size + 8).toNat → x ≠ sumSizes bs1 + b.natAbs - 4 →
      (myalloc a size).arena.mem x = a.mem x := by
  intro x hx1 hx2 hx3 hx4
  rw [myalloc_split_eq a bs1 bs2 b size hl hs hfind hsplit]
  exact (writeWord_other _ _ _ hx4).trans ((writeWord_other _ _ _ hx3).trans
    ((writeWord_other _ _ _ hx2).trans (writeWord_other _ _ _ hx1)))

/-- Trace of a successful non-splitting allocation: exactly two word
writes, negating the chosen block's header and footer in place. -/
theorem myalloc_nosplit_eq (a : Arena) (bs1 bs2 : List Int) (b size : Int)
    (hl : LayoutSeg a.mem 0 (bs1 ++ b :: bs2) a.memSize)
    (hs : 0 < size)
    (hfind : best_fit_block a size = some (sumSizes bs1))
    (hnosplit : (b.natAbs : Int) < size + 16) :
    myalloc a size =
      ⟨some (sumSizes bs1 + 4),
        ⟨a.memSize,
          writeWord (writeWord a.mem (sumSizes bs1) (-b))
            (sumSizes bs1 + b.natAbs - 4) (-b)⟩,
        none⟩ := by
  obtain ⟨hl1, hlm⟩ := layoutSeg_append.1 hl
  rw [Nat.zero_add] at hlm
  rw [layoutSeg_cons] at hlm
  obtain ⟨h8, hv, hf, hl3⟩ := hlm
  simp only [myalloc, hfind]
  rw [hv]
  rw [if_neg (by omega)]
  have e1 : get_footer (writeWord a.mem (sumSizes bs1) (-b)) (sumSizes bs1)
      = sumSizes bs1 + b.natAbs - 4 := by
    unfold get_footer
    rw [writeWord_same]
    omega
  rw [e1]
  have e2 : writeWord a.mem (sumSizes bs1) (-b) (sumSizes bs1 + b.natAbs - 4)
      = b := by
    rw [writeWord_other _ _ _ (by omega)]
    exact hf
  rw [e2]

/-- After a non-splitting allocation the arena's layout negates the chosen
block in place. -/
theorem myalloc_nosplit_layout (a : Arena) (bs1 bs2 : List Int) (b size : Int)
    (hl : LayoutSeg a.mem 0 (bs1 ++ b :: bs2) a.memSize)
    (hs : 0 < size)
    (hfind : best_fit_block a size = some (sumSizes bs1))
    (hnosplit : (b.natAbs : Int) < size + 16) :
    LayoutSeg (myalloc a size).arena.mem 0 (bs1 ++ (-b) :: bs2) a.memSize := by
  obtain ⟨hl1, hlm⟩ := layoutSeg_append.1 hl
  rw [Nat.zero_add] at hlm
  rw [Nat.zero_add] at hl1
  rw [layoutSeg_cons] at hlm
  obtain ⟨h8, hv, hf, hl3⟩ := hlm
  rw [myalloc_nosplit_eq a bs1 bs2 b size hl hs hfind hnosplit]
  have hnb : (-b).natAbs = b.natAbs := by omega
  rw [layoutSeg_append]
  simp only [Nat.zero_add]
  constructor
  · refine layoutSeg_congr hl1 (fun x hx1 hx2 => ?_)
    rw [writeWord_other _ _ _ (by omega), writeWord_other _ _ _ (by omega)]
  · rw [layoutSeg_cons]
    refine ⟨by omega, ?_, ?_, ?_⟩
    · rw [writeWord_other _ _ _ (by omega), writeWord_same]
    · rw [hnb, writeWord_same]
    · rw [hnb]
      refine layoutSeg_congr hl3 (fun x hx1 hx2 => ?_)
      rw [writeWord_other _ _ _ (by omega), writeWord_other _ _ _ (by omega)]

/-- A non-splitting allocation writes nothing outside the chosen block's
header and footer words. -/
theorem myalloc_nosplit_frame (a : Arena) (bs1 bs2 : List Int) (b size : Int)
    (hl : LayoutSeg a.mem 0 (bs1 ++ b :: bs2) a.memSize)
    (hs : 0 < size)
    (hfind : best_fit_block a size = some (sumSizes bs1))
    (hnosplit : (b.natAbs : Int) < size + 16) :
    ∀ x, x ≠ sumSizes bs1 → x ≠ sumSizes bs1 + b.natAbs - 4 →
      (myalloc a size).arena.mem x = a.mem x := by
  intro x hx1 hx2
  rw [myalloc_nosplit_eq a bs1 bs2 b size hl hs hfind hnosplit]
  exact (writeWord_other _ _ _ hx2).trans (writeWord_other _ _ _ hx1)

/-! ## What `myfree` writes -/

theorem myfreeCont_pair (msz : Nat) (m3 : Mem) (h2 : Nat) :
    myfreeCont msz (m3, h2) = myfreeCont2 msz m3 (get_next_header ⟨msz, m3⟩ h2) :=
  rfl

theorem myfreeCont2_none (msz : Nat) (m3 : Mem) :
    myfreeCont2 msz m3 none = ⟨msz, m3⟩ := rfl

theorem myfreeCont2_some (msz : Nat) (m3 : Mem) (n : Nat) :
    myfreeCont2 msz m3 (some n) =
      if 0 < m3 n then ⟨msz, fwd_coalesce ⟨msz, m3⟩ (get_header m3 (n - 4))⟩
      else ⟨msz, m3⟩ := rfl

/-- Trace of `myfree` when neither neighbour is free (or exists): the freed
block's header and footer are negated back to positive and nothing is
coalesced. -/
theorem myfree_eq_nn (a : Arena) (bs1 bs2 : List Int) (b : Int)
    (hl : LayoutSeg a.mem 0 (bs1 ++ b :: bs2) a.memSize)
    (hb : b < 0)
    (hnl : bs1 = [] ∨ ∃ bs1' L, bs1 = bs1' ++ [L] ∧ L < 0)
    (hnr : bs2 = [] ∨ ∃ R bs2', bs2 = R :: bs2' ∧ R < 0) :
    myfree a (sumSizes bs1 + 4) =
      ⟨a.memSize,
        writeWord (writeWord a.mem (sumSizes bs1) (-b))
          (sumSizes bs1 + b.natAbs - 4) (-b)⟩ := by
  obtain ⟨hl1, hlm⟩ := layoutSeg_append.1 hl
  rw [Nat.zero_add] at hlm
  rw [Nat.zero_add] at hl1
  rw [layoutSeg_cons] at hlm
  obtain ⟨h8, hv, hf, hl3⟩ := hlm
  have hsum3 := layoutSeg_sum hl3
  simp only [myfree]
  rw [show sumSizes bs1 + 4 - 4 = sumSizes bs1 from by omega]
  rw [hv]
  have e1 : get_footer (writeWord a.mem (sumSizes bs1) (-b)) (sumSizes bs1)
      = sumSizes bs1 + b.natAbs - 4 := by
    unfold get_footer; rw [writeWord_same]; omega
  rw [e1]
  have e2 : writeWord a.mem (sumSizes bs1) (-b) (sumSizes bs1 + b.natAbs - 4)
      = b := by
    rw [writeWord_other _ _ _ (by omega)]; exact hf
  rw [e2]
  have e3 : get_header (writeWord (writeWord a.mem (sumSizes bs1) (-b))
      (sumSizes bs1 + b.natAbs - 4) (-b)) (sumSizes bs1 + b.natAbs - 4)
      = sumSizes bs1 := by
    unfold get_header; rw [writeWord_same]; omega
  rw [e3]
  have hcond : ¬(sumSizes bs1 ≠ 0 ∧
      0 < writeWord (writeWord a.mem (sumSizes bs1) (-b))
        (sumSizes bs1 + b.natAbs - 4) (-b) (sumSizes bs1 - 4)) := by
    rcases hnl with rfl | ⟨bs1', L, rfl, hLneg⟩
    · rintro ⟨hc, _⟩
      exact hc rfl
    · rintro ⟨_, hc⟩
      obtain ⟨hl1a, hl1b⟩ := layoutSeg_append.1 hl1
      rw [Nat.zero_add] at hl1a hl1b
      rw [layoutSeg_cons] at hl1b
      obtain ⟨hL8, hLv, hLf, _⟩ := hl1b
      have hoff : sumSizes (bs1' ++ [L]) - 4
          = sumSizes bs1' + L.natAbs - 4 := by
        simp only [sumSizes_append, sumSizes_cons, sumSizes_nil]
        omega
      rw [hoff, writeWord_other _ _ _ (by
          simp only [sumSizes_append, sumSizes_cons, sumSizes_nil]; omega),
        writeWord_other _ _ _ (by
          simp only [sumSizes_append, sumSizes_cons, sumSizes_nil]; omega),
        hLf] at hc
      omega
  rw [if_neg hcond, myfreeCont_pair]
  have e4 : writeWord (writeWord a.mem (sumSizes bs1) (-b))
      (sumSizes bs1 + b.natAbs - 4) (-b) (sumSizes bs1) = -b := by
    rw [writeWord_other _ _ _ (by omega), writeWord_same]
  rcases hnr with rfl | ⟨R, bs2', rfl, hRneg⟩
  · have hnext : get_next_header
        ⟨a.memSize, writeWord (writeWord a.mem (sumSizes bs1) (-b))
          (sumSizes bs1 + b.natAbs - 4) (-b)⟩ (sumSizes bs1) = none := by
      unfold get_next_header
      simp only [Arena_mem_mk, Arena_memSize_mk]
      rw [e4]
      rw [layoutSeg_nil] at hl3
      rw [if_pos (by omega)]
    rw [hnext, myfreeCont2_none]
  · have hR8 : 8 ≤ R.natAbs := layoutSeg_min hl3 R (List.mem_cons_self R bs2')
    have hsumR := layoutSeg_sum hl3
    simp only [sumSizes_cons] at hsumR
    have hnext : get_next_header
        ⟨a.memSize, writeWord (writeWord a.mem (sumSizes bs1) (-b))
          (sumSizes bs1 + b.natAbs - 4) (-b)⟩ (sumSizes bs1)
        = some (sumSizes bs1 + b.natAbs) := by
      unfold get_next_header
      simp only [Arena_mem_mk, Arena_memSize_mk]
      rw [e4]
      rw [if_neg (by omega), Int.natAbs_neg]
    rw [hnext, myfreeCont2_some]
    rw [layoutSeg_cons] at hl3
    obtain ⟨_, hRv, _, _⟩ := hl3
    have e5 : writeWord (writeWord a.mem (sumSizes bs1) (-b))
        (sumSizes bs1 + b.natAbs - 4) (-b) (sumSizes bs1 + b.natAbs) = R := by
      rw [writeWord_other _ _ _ (by omega), writeWord_other _ _ _ (by omega)]
      exact hRv
    rw [e5, if_neg (by omega)]

theorem fwdCont_none (a : Arena) (left : Int) : fwdCont a left none = a.mem := rfl

theorem fwdCont_some (a : Arena) (left : Int) (n : Nat) :
    fwdCont a left (some n) =
      writeWord
        (writeWord a.mem (get_header a.mem (n - 4))
          (a.mem (get_header a.mem (n - 4)) + a.mem n))
        (get_footer (writeWord a.mem (get_header a.mem (n - 4))
          (a.mem (get_header a.mem (n - 4)) + a.mem n))
          (get_header a.mem (n - 4)))
        (writeWord a.mem (get_header a.mem (n - 4))
          (a.mem (get_header a.mem (n - 4)) + a.mem n)
          (get_footer (writeWord a.mem (get_header a.mem (n - 4))
            (a.mem (get_header a.mem (n - 4)) + a.mem n))
            (get_header a.mem (n - 4))) + left) := rfl

/-- Trace of `myfree` when only the left neighbour `L` is free: the freed
block's tags are flipped, then the left block absorbs it; the merged size
`L - b` lands in the left block's header and in the freed block's footer. -/
theorem myfree_eq_ln (a : Arena) (bs1' bs2 : List Int) (L b : Int)
    (hl : LayoutSeg a.mem 0 ((bs1' ++ [L]) ++ b :: bs2) a.memSize)
    (hb : b < 0) (hL : 0 < L)
    (hnr : bs2 = [] ∨ ∃ R bs2', bs2 = R :: bs2' ∧ R < 0) :
    myfree a (sumSizes bs1' + L.natAbs + 4) =
      ⟨a.memSize, writeWord (writeWord (writeWord (writeWord a.mem
          (sumSizes bs1' + L.natAbs) (-b))
          (sumSizes bs1' + L.natAbs + b.natAbs - 4) (-b))
          (sumSizes bs1') (L + -b))
          (sumSizes bs1' + L.natAbs + b.natAbs - 4) (-b + L)⟩ := by
  obtain ⟨hl1, hlm⟩ := layoutSeg_append.1 hl
  have hsum1 : sumSizes (bs1' ++ [L]) = sumSizes bs1' + L.natAbs := by simp
  rw [Nat.zero_add, hsum1] at hlm
  rw [Nat.zero_add, hsum1] at hl1
  rw [layoutSeg_cons] at hlm
  obtain ⟨h8, hv, hf, hl3⟩ := hlm
  obtain ⟨hl1a, hl1b⟩ := layoutSeg_append.1 hl1
  rw [layoutSeg_cons] at hl1b
  obtain ⟨hL8, hLv, hLf, _⟩ := hl1b
  rw [Nat.zero_add] at hl1a hLv hLf
  have hsum3 := layoutSeg_sum hl3
  simp only [myfree]
  rw [show sumSizes bs1' + L.natAbs + 4 - 4 = sumSizes bs1' + L.natAbs from by
    omega]
  rw [hv]
  have e1 : get_footer (writeWord a.mem (sumSizes bs1' + L.natAbs) (-b))
      (sumSizes bs1' + L.natAbs)
      = sumSizes bs1' + L.natAbs + b.natAbs - 4 := by
    unfold get_footer; rw [writeWord_same]; omega
  rw [e1]
  have e2 : writeWord a.mem (sumSizes bs1' + L.natAbs) (-b)
      (sumSizes bs1' + L.natAbs + b.natAbs - 4) = b := by
    rw [writeWord_other _ _ _ (by omega)]; exact hf
  rw [e2]
  have e3 : get_header (writeWord (writeWord a.mem
      (sumSizes bs1' + L.natAbs) (-b))
      (sumSizes bs1' + L.natAbs + b.natAbs - 4) (-b))
      (sumSizes bs1' + L.natAbs + b.natAbs - 4)
      = sumSizes bs1' + L.natAbs := by
    unfold get_header; rw [writeWord_same]; omega
  rw [e3]
  have e5 : writeWord (writeWord a.mem (sumSizes bs1' + L.natAbs) (-b))
      (sumSizes bs1' + L.natAbs + b.natAbs - 4) (-b)
      (sumSizes bs1' + L.natAbs - 4) = L := by
    rw [writeWord_other _ _ _ (by omega), writeWord_other _ _ _ (by omega)]
    exact hLf
  rw [e5]
  rw [if_pos (show sumSizes bs1' + L.natAbs ≠ 0 ∧ 0 < L from ⟨by omega, hL⟩)]
  simp only [back_coalesce]
  rw [e5]
  have e6 : writeWord (writeWord a.mem (sumSizes bs1' + L.natAbs) (-b))
      (sumSizes bs1' + L.natAbs + b.natAbs - 4) (-b)
      (sumSizes bs1' + L.natAbs) = -b := by
    rw [writeWord_other _ _ _ (by omega), writeWord_same]
  rw [e6]
  have e7 : get_header (writeWord (writeWord a.mem
      (sumSizes bs1' + L.natAbs) (-b))
      (sumSizes bs1' + L.natAbs + b.natAbs - 4) (-b))
      (sumSizes bs1' + L.natAbs - 4) = sumSizes bs1' := by
    unfold get_header; rw [e5]; omega
  rw [e7]
  have e8 : writeWord (writeWord a.mem (sumSizes bs1' + L.natAbs) (-b))
      (sumSizes bs1' + L.natAbs + b.natAbs - 4) (-b) (sumSizes bs1') = L := by
    rw [writeWord_other _ _ _ (by omega), writeWord_other _ _ _ (by omega)]
    exact hLv
  rw [e8]
  have e9 : get_footer (writeWord (writeWord (writeWord a.mem
      (sumSizes bs1' + L.natAbs) (-b))
      (sumSizes bs1' + L.natAbs + b.natAbs - 4) (-b))
      (sumSizes bs1') (L + -b)) (sumSizes bs1')
      = sumSizes bs1' + L.natAbs + b.natAbs - 4 := by
    unfold get_footer; rw [writeWord_same]; omega
  rw [e9]
  have e10 : writeWord (writeWord (writeWord a.mem
      (sumSizes bs1' + L.natAbs) (-b))
      (sumSizes bs1' + L.natAbs + b.natAbs - 4) (-b))
      (sumSizes bs1') (L + -b)
      (sumSizes bs1' + L.natAbs + b.natAbs - 4) = -b := by
    rw [writeWord_other _ _ _ (by omega), writeWord_same]
  rw [e10]
  have e11 : get_header (writeWord (writeWord (writeWord (writeWord a.mem
      (sumSizes bs1' + L.natAbs) (-b))
      (sumSizes bs1' + L.natAbs + b.natAbs - 4) (-b))
      (sumSizes bs1') (L + -b))
      (sumSizes bs1' + L.natAbs + b.natAbs - 4) (-b + L))
      (sumSizes bs1' + L.natAbs + b.natAbs - 4) = sumSizes bs1' := by
    unfold get_header; rw [writeWord_same]; omega
  rw [e11, myfreeCont_pair]
  have e12 : writeWord (writeWord (writeWord (writeWord a.mem
      (sumSizes bs1' + L.natAbs) (-b))
      (sumSizes bs1' + L.natAbs + b.natAbs - 4) (-b))
      (sumSizes bs1') (L + -b))
      (sumSizes bs1' + L.natAbs + b.natAbs - 4) (-b + L)
      (sumSizes bs1') = L + -b := by
    rw [writeWord_other _ _ _ (by omega), writeWord_same]
  rcases hnr with rfl | ⟨R, bs2', rfl, hRneg⟩
  · have hnext : get_next_header
        ⟨a.memSize, writeWord (writeWord (writeWord (writeWord a.mem
          (sumSizes bs1' + L.natAbs) (-b))
          (sumSizes bs1' + L.natAbs + b.natAbs - 4) (-b))
          (sumSizes bs1') (L + -b))
          (sumSizes bs1' + L.natAbs + b.natAbs - 4) (-b + L)⟩
        (sumSizes bs1') = none := by
      unfold get_next_header
      simp only [Arena_mem_mk, Arena_memSize_mk]
      rw [e12]
      rw [layoutSeg_nil] at hl3
      rw [if_pos (by omega)]
    rw [hnext, myfreeCont2_none]
  · have hR8 : 8 ≤ R.natAbs := layoutSeg_min hl3 R (List.mem_cons_self R bs2')
    have hsumR := layoutSeg_sum hl3
    simp only [sumSizes_cons] at hsumR
    have hnext : get_next_header
        ⟨a.memSize, writeWord (writeWord (writeWord (writeWord a.mem
          (sumSizes bs1' + L.natAbs) (-b))
          (sumSizes bs1' + L.natAbs + b.natAbs - 4) (-b))
          (sumSizes bs1') (L + -b))
          (sumSizes bs1' + L.natAbs + b.natAbs - 4) (-b + L)⟩
        (sumSizes bs1')
        = some (sumSizes bs1' + L.natAbs + b.natAbs) := by
      unfold get_next_header
      simp only [Arena_mem_mk, Arena_memSize_mk]
      rw [e12]
      rw [if_neg (by omega)]
      congr 1
      omega
    rw [hnext, myfreeCont2_some]
    rw [layoutSeg_cons] at hl3
    obtain ⟨_, hRv, _, _⟩ := hl3
    have e13 : writeWord (writeWord (writeWord (writeWord a.mem
        (sumSizes bs1' + L.natAbs) (-b))
        (sumSizes bs1' + L.natAbs + b.natAbs - 4) (-b))
        (sumSizes bs1') (L + -b))
        (sumSizes bs1' + L.natAbs + b.natAbs - 4) (-b + L)
        (sumSizes bs1' + L.natAbs + b.natAbs) = R := by
      rw [writeWord_other _ _ _ (by omega), writeWord_other _ _ _ (by omega),
        writeWord_other _ _ _ (by omega), writeWord_other _ _ _ (by omega)]
      exact hRv
    rw [e13, if_neg (by omega)]

/-- Trace of `myfree` when only the right neighbour `R` is free: the freed
block's tags are flipped, then it absorbs the right block; the merged size
lands in the freed block's header and in the right block's footer. -/
theorem myfree_eq_nr (a : Arena) (bs1 bs2' : List Int) (b R : Int)
    (hl : LayoutSeg a.mem 0 (bs1 ++ b :: R :: bs2') a.memSize)
    (hb : b < 0) (hR : 0 < R)
    (hnl : bs1 = [] ∨ ∃ bs1' L, bs1 = bs1' ++ [L] ∧ L < 0) :
    myfree a (sumSizes bs1 + 4) =
      ⟨a.memSize, writeWord (writeWord (writeWord (writeWord a.mem
          (sumSizes bs1) (-b))
          (sumSizes bs1 + b.natAbs - 4) (-b))
          (sumSizes bs1) (-b + R))
          (sumSizes bs1 + b.natAbs + R.natAbs - 4) (R + -b)⟩ := by
  obtain ⟨hl1, hlm⟩ := layoutSeg_append.1 hl
  rw [Nat.zero_add] at hlm
  rw [Nat.zero_add] at hl1
  rw [layoutSeg_cons] at hlm
  obtain ⟨h8, hv, hf, hl3⟩ := hlm
  have hR8 : 8 ≤ R.natAbs := layoutSeg_min hl3 R (List.mem_cons_self R bs2')
  have hsumR := layoutSeg_sum hl3
  simp only [sumSizes_cons] at hsumR
  rw [layoutSeg_cons] at hl3
  obtain ⟨_, hRv, hRf, _⟩ := hl3
  simp only [myfree]
  rw [show sumSizes bs1 + 4 - 4 = sumSizes bs1 from by omega]
  rw [hv]
  have e1 : get_footer (writeWord a.mem (sumSizes bs1) (-b)) (sumSizes bs1)
      = sumSizes bs1 + b.natAbs - 4 := by
    unfold get_footer; rw [writeWord_same]; omega
  rw [e1]
  have e2 : writeWord a.mem (sumSizes bs1) (-b) (sumSizes bs1 + b.natAbs - 4)
      = b := by
    rw [writeWord_other _ _ _ (by omega)]; exact hf
  rw [e2]
  have e3 : get_header (writeWord (writeWord a.mem (sumSizes bs1) (-b))
      (sumSizes bs1 + b.natAbs - 4) (-b)) (sumSizes bs1 + b.natAbs - 4)
      = sumSizes bs1 := by
    unfold get_header; rw [writeWord_same]; omega
  rw [e3]
  have hcond : ¬(sumSizes bs1 ≠ 0 ∧
      0 < writeWord (writeWord a.mem (sumSizes bs1) (-b))
        (sumSizes bs1 + b.natAbs - 4) (-b) (sumSizes bs1 - 4)) := by
    rcases hnl with rfl | ⟨bs1', L, rfl, hLneg⟩
    · rintro ⟨hc, _⟩
      exact hc rfl
    · rintro ⟨_, hc⟩
      obtain ⟨hl1a, hl1b⟩ := layoutSeg_append.1 hl1
      rw [Nat.zero_add] at hl1a hl1b
      rw [layoutSeg_cons] at hl1b
      obtain ⟨hL8, hLv, hLf, _⟩ := hl1b
      have hoff : sumSizes (bs1' ++ [L]) - 4
          = sumSizes bs1' + L.natAbs - 4 := by
        simp only [sumSizes_append, sumSizes_cons, sumSizes_nil]
        omega
      rw [hoff, writeWord_other _ _ _ (by
          simp only [sumSizes_append, sumSizes_cons, sumSizes_nil]; omega),
        writeWord_other _ _ _ (by
          simp only [sumSizes_append, sumSizes_cons, sumSizes_nil]; omega),
        hLf] at hc
      omega
  rw [if_neg hcond, myfreeCont_pair]
  have e4 : writeWord (writeWord a.mem (sumSizes bs1) (-b))
      (sumSizes bs1 + b.natAbs - 4) (-b) (sumSizes bs1) = -b := by
    rw [writeWord_other _ _ _ (by omega), writeWord_same]
  have hnext : get_next_header
      ⟨a.memSize, writeWord (writeWord a.mem (sumSizes bs1) (-b))
        (sumSizes bs1 + b.natAbs - 4) (-b)⟩ (sumSizes bs1)
      = some (sumSizes bs1 + b.natAbs) := by
    unfold get_next_header
    simp only [Arena_mem_mk, Arena_memSize_mk]
    rw [e4]
    rw [if_neg (by omega), Int.natAbs_neg]
  rw [hnext, myfreeCont2_some]
  have e5 : writeWord (writeWord a.mem (sumSizes bs1) (-b))
      (sumSizes bs1 + b.natAbs - 4) (-b) (sumSizes bs1 + b.natAbs) = R := by
    rw [writeWord_other _ _ _ (by omega), writeWord_other _ _ _ (by omega)]
    exact hRv
  rw [e5, if_pos hR]
  rw [show sumSizes bs1 + b.natAbs - 4 = sumSizes bs1 + b.natAbs - 4 from rfl]
  simp only [fwd_coalesce, Arena_mem_mk]
  rw [e3, e4, hnext, fwdCont_some]
  simp only [Arena_mem_mk]
  rw [e3, e4, e5]
  have e9 : get_footer (writeWord (writeWord (writeWord a.mem
      (sumSizes bs1) (-b)) (sumSizes bs1 + b.natAbs - 4) (-b))
      (sumSizes bs1) (-b + R)) (sumSizes bs1)
      = sumSizes bs1 + b.natAbs + R.natAbs - 4 := by
    unfold get_footer; rw [writeWord_same]; omega
  rw [e9]
  have e10 : writeWord (writeWord (writeWord a.mem
      (sumSizes bs1) (-b)) (sumSizes bs1 + b.natAbs - 4) (-b))
      (sumSizes bs1) (-b + R) (sumSizes bs1 + b.natAbs + R.natAbs - 4)
      = R := by
    rw [writeWord_other _ _ _ (by omega), writeWord_other _ _ _ (by omega),
      writeWord_other _ _ _ (by omega)]
    exact hRf
  rw [e10]

/-- Trace of `myfree` when both neighbours are free: the left block absorbs
the freed block, then the merged block absorbs the right block. -/
theorem myfree_eq_lr (a : Arena) (bs1' bs2' : List Int) (L b R : Int)
    (hl : LayoutSeg a.mem 0 ((bs1' ++ [L]) ++ b :: R :: bs2') a.memSize)
    (hb : b < 0) (hL : 0 < L) (hR : 0 < R) :
    myfree a (sumSizes bs1' + L.natAbs + 4) =
      ⟨a.memSize, writeWord (writeWord (writeWord (writeWord (writeWord
          (writeWord a.mem
          (sumSizes bs1' + L.natAbs) (-b))
          (sumSizes bs1' + L.natAbs + b.natAbs - 4) (-b))
          (sumSizes bs1') (L + -b))
          (sumSizes bs1' + L.natAbs + b.natAbs - 4) (-b + L))
          (sumSizes bs1') (L + -b + R))
          (sumSizes bs1' + L.natAbs + b.natAbs + R.natAbs - 4) (R + (L + -b))⟩ := by
  obtain ⟨hl1, hlm⟩ := layoutSeg_append.1 hl
  have hsum1 : sumSizes (bs1' ++ [L]) = sumSizes bs1' + L.natAbs := by simp
  rw [Nat.zero_add, hsum1] at hlm
  rw [Nat.zero_add, hsum1] at hl1
  rw [layoutSeg_cons] at hlm
  obtain ⟨h8, hv, hf, hl3⟩ := hlm
  obtain ⟨hl1a, hl1b⟩ := layoutSeg_append.1 hl1
  rw [layoutSeg_cons] at hl1b
  obtain ⟨hL8, hLv, hLf, _⟩ := hl1b
  rw [Nat.zero_add] at hl1a hLv hLf
  have hR8 : 8 ≤ R.natAbs := layoutSeg_min hl3 R (List.mem_cons_self R bs2')
  have hsumR := layoutSeg_sum hl3
  simp only [sumSizes_cons] at hsumR
  rw [layoutSeg_cons] at hl3
  obtain ⟨_, hRv, hRf, _⟩ := hl3
  simp only [myfree]
  rw [show sumSizes bs1' + L.natAbs + 4 - 4 = sumSizes bs1' + L.natAbs from by
    omega]
  rw [hv]
  have e1 : get_footer (writeWord a.mem (sumSizes bs1' + L.natAbs) (-b))
      (sumSizes bs1' + L.natAbs)
      = sumSizes bs1' + L.natAbs + b.natAbs - 4 := by
    unfold get_footer; rw [writeWord_same]; omega
  rw [e1]
  have e2 : writeWord a.mem (sumSizes bs1' + L.natAbs) (-b)
      (sumSizes bs1' + L.natAbs + b.natAbs - 4) = b := by
    rw [writeWord_other _ _ _ (by omega)]; exact hf
  rw [e2]
  have e3 : get_header (writeWord (writeWord a.mem
      (sumSizes bs1' + L.natAbs) (-b))
      (sumSizes bs1' + L.natAbs + b.natAbs - 4) (-b))
      (sumSizes bs1' + L.natAbs + b.natAbs - 4)
      = sumSizes bs1' + L.natAbs := by
    unfold get_header; rw [writeWord_same]; omega
  rw [e3]
  have e5 : writeWord (writeWord a.mem (sumSizes bs1' + L.natAbs) (-b))
      (sumSizes bs1' + L.natAbs + b.natAbs - 4) (-b)
      (sumSizes bs1' + L.natAbs - 4) = L := by
    rw [writeWord_other _ _ _ (by omega), writeWord_other _ _ _ (by omega)]
    exact hLf
  rw [e5]
  rw [if_pos (show sumSizes bs1' + L.natAbs ≠ 0 ∧ 0 < L from ⟨by omega, hL⟩)]
  simp only [back_coalesce]
  rw [e5]
  have e6 : writeWord (writeWord a.mem (sumSizes bs1' + L.natAbs) (-b))
      (sumSizes bs1' + L.natAbs + b.natAbs - 4) (-b)
      (sumSizes bs1' + L.natAbs) = -b := by
    rw [writeWord_other _ _ _ (by omega), writeWord_same]
  rw [e6]
  have e7 : get_header (writeWord (writeWord a.mem
      (sumSizes bs1' + L.natAbs) (-b))
      (sumSizes bs1' + L.natAbs + b.natAbs - 4) (-b))
      (sumSizes bs1' + L.natAbs - 4) = sumSizes bs1' := by
    unfold get_header; rw [e5]; omega
  rw [e7]
  have e8 : writeWord (writeWord a.mem (sumSizes bs1' + L.natAbs) (-b))
      (sumSizes bs1' + L.natAbs + b.natAbs - 4) (-b) (sumSizes bs1') = L := by
    rw [writeWord_other _ _ _ (by omega), writeWord_other _ _ _ (by omega)]
    exact hLv
  rw [e8]
  have e9 : get_footer (writeWord (writeWord (writeWord a.mem
      (sumSizes bs1' + L.natAbs) (-b))
      (sumSizes bs1' + L.natAbs + b.natAbs - 4) (-b))
      (sumSizes bs1') (L + -b)) (sumSizes bs1')
      = sumSizes bs1' + L.natAbs + b.natAbs - 4 := by
    unfold get_footer; rw [writeWord_same]; omega
  rw [e9]
  have e10 : writeWord (writeWord (writeWord a.mem
      (sumSizes bs1' + L.natAbs) (-b))
      (sumSizes bs1' + L.natAbs + b.natAbs - 4) (-b))
      (sumSizes bs1') (L + -b)
      (sumSizes bs1' + L.natAbs + b.natAbs - 4) = -b := by
    rw [writeWord_other _ _ _ (by omega), writeWord_same]
  rw [e10]
  have e11 : get_header (writeWord (writeWord (writeWord (writeWord a.mem
      (sumSizes bs1' + L.natAbs) (-b))
      (sumSizes bs1' + L.natAbs + b.natAbs - 4) (-b))
      (sumSizes bs1') (L + -b))
      (sumSizes bs1' + L.natAbs + b.natAbs - 4) (-b + L))
      (sumSizes bs1' + L.natAbs + b.natAbs - 4) = sumSizes bs1' := by
    unfold get_header; rw [writeWord_same]; omega
  rw [e11, myfreeCont_pair]
  have e12 : writeWord (writeWord (writeWord (writeWord a.mem
      (sumSizes bs1' + L.natAbs) (-b))
      (sumSizes bs1' + L.natAbs + b.natAbs - 4) (-b))
      (sumSizes bs1') (L + -b))
      (sumSizes bs1' + L.natAbs + b.natAbs - 4) (-b + L)
      (sumSizes bs1') = L + -b := by
    rw [writeWord_other _ _ _ (by omega), writeWord_same]
  have hnext : get_next_header
      ⟨a.memSize, writeWord (writeWord (writeWord (writeWord a.mem
        (sumSizes bs1' + L.natAbs) (-b))
        (sumSizes bs1' + L.natAbs + b.natAbs - 4) (-b))
        (sumSizes bs1') (L + -b))
        (sumSizes bs1' + L.natAbs + b.natAbs - 4) (-b + L)⟩
      (sumSizes bs1')
      = some (sumSizes bs1' + L.natAbs + b.natAbs) := by
    unfold get_next_header
    simp only [Arena_mem_mk, Arena_memSize_mk]
    rw [e12]
    rw [if_neg (by omega)]
    congr 1
    omega
  rw [hnext, myfreeCont2_some]
  have e13 : writeWord (writeWord (writeWord (writeWord a.mem
      (sumSizes bs1' + L.natAbs) (-b))
      (sumSizes bs1' + L.natAbs + b.natAbs - 4) (-b))
      (sumSizes bs1') (L + -b))
      (sumSizes bs1' + L.natAbs + b.natAbs - 4) (-b + L)
      (sumSizes bs1' + L.natAbs + b.natAbs) = R := by
    rw [writeWord_other _ _ _ (by omega), writeWord_other _ _ _ (by omega),
      writeWord_other _ _ _ (by omega), writeWord_other _ _ _ (by omega)]
    exact hRv
  rw [e13, if_pos hR]
  have e14 : get_header (writeWord (writeWord (writeWord (writeWord a.mem
      (sumSizes bs1' + L.natAbs) (-b))
      (sumSizes bs1' + L.natAbs + b.natAbs - 4) (-b))
      (sumSizes bs1') (L + -b))
      (sumSizes bs1' + L.natAbs + b.natAbs - 4) (-b + L))
      (sumSizes bs1' + L.natAbs + b.natAbs - 4) = sumSizes bs1' := by
    unfold get_header; rw [writeWord_same]; omega
  rw [e14]
  simp only [fwd_coalesce, Arena_mem_mk]
  rw [e12, hnext, fwdCont_some]
  simp only [Arena_mem_mk]
  rw [e14, e12, e13]
  have e15 : get_footer (writeWord (writeWord (writeWord (writeWord
      (writeWord a.mem
      (sumSizes bs1' + L.natAbs) (-b))
      (sumSizes bs1' + L.natAbs + b.natAbs - 4) (-b))
      (sumSizes bs1') (L + -b))
      (sumSizes bs1' + L.natAbs + b.natAbs - 4) (-b + L))
      (sumSizes bs1') (L + -b + R)) (sumSizes bs1')
      = sumSizes bs1' + L.natAbs + b.natAbs + R.natAbs - 4 := by
    unfold get_footer; rw [writeWord_same]; omega
  rw [e15]
  have e16 : writeWord (writeWord (writeWord (writeWord (writeWord a.mem
      (sumSizes bs1' + L.natAbs) (-b))
      (sumSizes bs1' + L.natAbs + b.natAbs - 4) (-b))
      (sumSizes bs1') (L + -b))
      (sumSizes bs1' + L.natAbs + b.natAbs - 4) (-b + L))
      (sumSizes bs1') (L + -b + R)
      (sumSizes bs1' + L.natAbs + b.natAbs + R.natAbs - 4) = R := by
    rw [writeWord_other _ _ _ (by omega), writeWord_other _ _ _ (by omega),
      writeWord_other _ _ _ (by omega), writeWord_other _ _ _ (by omega),
      writeWord_other _ _ _ (by omega)]
    exact hRf
  rw [e16]

/-- Layout after a free with no coalescing: the freed block's entry flips
from `b` to `-b`. -/
theorem myfree_layout_nn (a : Arena) (bs1 bs2 : List Int) (b : Int)
    (hl : LayoutSeg a.mem 0 (bs1 ++ b :: bs2) a.memSize)
    (hb : b < 0)
    (hnl : bs1 = [] ∨ ∃ bs1' L, bs1 = bs1' ++ [L] ∧ L < 0)
    (hnr : bs2 = [] ∨ ∃ R bs2', bs2 = R :: bs2' ∧ R < 0) :
    (myfree a (sumSizes bs1 + 4)).memSize = a.memSize ∧
      LayoutSeg (myfree a (sumSizes bs1 + 4)).mem 0 (bs1 ++ (-b) :: bs2)
        a.memSize := by
  obtain ⟨hl1, hlm⟩ := layoutSeg_append.1 hl
  rw [Nat.zero_add] at hlm
  rw [Nat.zero_add] at hl1
  rw [layoutSeg_cons] at hlm
  obtain ⟨h8, hv, hf, hl3⟩ := hlm
  rw [myfree_eq_nn a bs1 bs2 b hl hb hnl hnr]
  simp only [Arena_mem_mk, Arena_memSize_mk]
  refine ⟨trivial, ?_⟩
  rw [layoutSeg_append]
  simp only [Nat.zero_add]
  constructor
  · refine layoutSeg_congr hl1 (fun x hx1 hx2 => ?_)
    rw [writeWord_other _ _ _ (by omega), writeWord_other _ _ _ (by omega)]
  · rw [layoutSeg_cons, Int.natAbs_neg]
    refine ⟨by omega, ?_, ?_, ?_⟩
    · rw [writeWord_other _ _ _ (by omega), writeWord_same]
    · rw [writeWord_same]
    · refine layoutSeg_congr hl3 (fun x hx1 hx2 => ?_)
      rw [writeWord_other _ _ _ (by omega), writeWord_other _ _ _ (by omega)]

/-- Layout after a free that merges with the free left neighbour `L`: the
two entries collapse to a single free block `L - b`. -/
theorem myfree_layout_ln (a : Arena) (bs1' bs2 : List Int) (L b : Int)
    (hl : LayoutSeg a.mem 0 ((bs1' ++ [L]) ++ b :: bs2) a.memSize)
    (hb : b < 0) (hL : 0 < L)
    (hnr : bs2 = [] ∨ ∃ R bs2', bs2 = R :: bs2' ∧ R < 0) :
    (myfree a (sumSizes bs1' + L.natAbs + 4)).memSize = a.memSize ∧
      LayoutSeg (myfree a (sumSizes bs1' + L.natAbs + 4)).mem 0
        (bs1' ++ (L - b) :: bs2) a.memSize := by
  obtain ⟨hl1, hlm⟩ := layoutSeg_append.1 hl
  have hsum1 : sumSizes (bs1' ++ [L]) = sumSizes bs1' + L.natAbs := by simp
  rw [Nat.zero_add, hsum1] at hlm
  rw [Nat.zero_add, hsum1] at hl1
  rw [layoutSeg_cons] at hlm
  obtain ⟨h8, hv, hf, hl3⟩ := hlm
  obtain ⟨hl1a, hl1b⟩ := layoutSeg_append.1 hl1
  rw [layoutSeg_cons] at hl1b
  obtain ⟨hL8, hLv, hLf, _⟩ := hl1b
  rw [Nat.zero_add] at hl1a
  rw [myfree_eq_ln a bs1' bs2 L b hl hb hL hnr]
  simp only [Arena_mem_mk, Arena_memSize_mk]
  refine ⟨trivial, ?_⟩
  have hLbn : (L - b).natAbs = L.natAbs + b.natAbs := by omega
  rw [layoutSeg_append]
  simp only [Nat.zero_add]
  constructor
  · refine layoutSeg_congr hl1a (fun x hx1 hx2 => ?_)
    rw [writeWord_other _ _ _ (by omega), writeWord_other _ _ _ (by omega),
      writeWord_other _ _ _ (by omega), writeWord_other _ _ _ (by omega)]
  · rw [layoutSeg_cons, hLbn]
    refine ⟨by omega, ?_, ?_, ?_⟩
    · rw [writeWord_other _ _ _ (by omega), writeWord_same]
      omega
    · rw [show sumSizes bs1' + (L.natAbs + b.natAbs) - 4
          = sumSizes bs1' + L.natAbs + b.natAbs - 4 from by omega]
      rw [writeWord_same]
      omega
    · rw [show sumSizes bs1' + (L.natAbs + b.natAbs)
          = sumSizes bs1' + L.natAbs + b.natAbs from by omega]
      refine layoutSeg_congr hl3 (fun x hx1 hx2 => ?_)
      rw [writeWord_other _ _ _ (by omega), writeWord_other _ _ _ (by omega),
        writeWord_other _ _ _ (by omega), writeWord_other _ _ _ (by omega)]

/-- Layout after a free that merges with the free right neighbour `R`: the
two entries collapse to a single free block `R - b`. -/
theorem myfree_layout_nr (a : Arena) (bs1 bs2' : List Int) (b R : Int)
    (hl : LayoutSeg a.mem 0 (bs1 ++ b :: R :: bs2') a.memSize)
    (hb : b < 0) (hR : 0 < R)
    (hnl : bs1 = [] ∨ ∃ bs1' L, bs1 = bs1' ++ [L] ∧ L < 0) :
    (myfree a (sumSizes bs1 + 4)).memSize = a.memSize ∧
      LayoutSeg (myfree a (sumSizes bs1 + 4)).mem 0
        (bs1 ++ (R - b) :: bs2') a.memSize := by
  obtain ⟨hl1, hlm⟩ := layoutSeg_append.1 hl
  rw [Nat.zero_add] at hlm
  rw [Nat.zero_add] at hl1
  rw [layoutSeg_cons] at hlm
  obtain ⟨h8, hv, hf, hl3⟩ := hlm
  have hR8 : 8 ≤ R.natAbs := layoutSeg_min hl3 R (List.mem_cons_self R bs2')
  have hsumR := layoutSeg_sum hl3
  simp only [sumSizes_cons] at hsumR
  rw [layoutSeg_cons] at hl3
  obtain ⟨_, hRv, hRf, hl4⟩ := hl3
  rw [myfree_eq_nr a bs1 bs2' b R hl hb hR hnl]
  simp only [Arena_mem_mk, Arena_memSize_mk]
  refine ⟨trivial, ?_⟩
  have hRbn : (R - b).natAbs = R.natAbs + b.natAbs := by omega
  rw [layoutSeg_append]
  simp only [Nat.zero_add]
  constructor
  · refine layoutSeg_congr hl1 (fun x hx1 hx2 => ?_)
    rw [writeWord_other _ _ _ (by omega), writeWord_other _ _ _ (by omega),
      writeWord_other _ _ _ (by omega), writeWord_other _ _ _ (by omega)]
  · rw [layoutSeg_cons, hRbn]
    refine ⟨by omega, ?_, ?_, ?_⟩
    · rw [writeWord_other _ _ _ (by omega), writeWord_same]
      omega
    · rw [show sumSizes bs1 + (R.natAbs + b.natAbs) - 4
          = sumSizes bs1 + b.natAbs + R.natAbs - 4 from by omega]
      rw [writeWord_same]
      omega
    · rw [show sumSizes bs1 + (R.natAbs + b.natAbs)
          = sumSizes bs1 + b.natAbs + R.natAbs from by omega]
      refine layoutSeg_congr hl4 (fun x hx1 hx2 => ?_)
      rw [writeWord_other _ _ _ (by omega), writeWord_other _ _ _ (by omega),
        writeWord_other _ _ _ (by omega), writeWord_other _ _ _ (by omega)]

/-- Layout after a free that merges with free neighbours on both sides:
the three entries collapse to a single free block `L - b + R`. -/
theorem myfree_layout_lr (a : Arena) (bs1' bs2' : List Int) (L b R : Int)
    (hl : LayoutSeg a.mem 0 ((bs1' ++ [L]) ++ b :: R :: bs2') a.memSize)
    (hb : b < 0) (hL : 0 < L) (hR : 0 < R) :
    (myfree a (sumSizes bs1' + L.natAbs + 4)).memSize = a.memSize ∧
      LayoutSeg (myfree a (sumSizes bs1' + L.natAbs + 4)).mem 0
        (bs1' ++ (L - b + R) :: bs2') a.memSize := by
  obtain ⟨hl1, hlm⟩ := layoutSeg_append.1 hl
  have hsum1 : sumSizes (bs1' ++ [L]) = sumSizes bs1' + L.natAbs := by simp
  rw [Nat.zero_add, hsum1] at hlm
  rw [Nat.zero_add, hsum1] at hl1
  rw [layoutSeg_cons] at hlm
  obtain ⟨h8, hv, hf, hl3⟩ := hlm
  obtain ⟨hl1a, hl1b⟩ := layoutSeg_append.1 hl1
  rw [layoutSeg_cons] at hl1b
  obtain ⟨hL8, hLv, hLf, _⟩ := hl1b
  rw [Nat.zero_add] at hl1a
  have hR8 : 8 ≤ R.natAbs := layoutSeg_min hl3 R (List.mem_cons_self R bs2')
  have hsumR := layoutSeg_sum hl3
  simp only [sumSizes_cons] at hsumR
  rw [layoutSeg_cons] at hl3
  obtain ⟨_, hRv, hRf, hl4⟩ := hl3
  rw [myfree_eq_lr a bs1' bs2' L b R hl hb hL hR]
  simp only [Arena_mem_mk, Arena_memSize_mk]
  refine ⟨trivial, ?_⟩
  have hn : (L - b + R).natAbs = L.natAbs + b.natAbs + R.natAbs := by omega
  rw [layoutSeg_append]
  simp only [Nat.zero_add]
  constructor
  · refine layoutSeg_congr hl1a (fun x hx1 hx2 => ?_)
    rw [writeWord_other _ _ _ (by omega), writeWord_other _ _ _ (by omega),
      writeWord_other _ _ _ (by omega), writeWord_other _ _ _ (by omega),
      writeWord_other _ _ _ (by omega), writeWord_other _ _ _ (by omega)]
  · rw [layoutSeg_cons, hn]
    refine ⟨by omega, ?_, ?_, ?_⟩
    · rw [writeWord_other _ _ _ (by omega), writeWord_same]
      omega
    · rw [show sumSizes bs1' + (L.natAbs + b.natAbs + R.natAbs) - 4
          = sumSizes bs1' + L.natAbs + b.natAbs + R.natAbs - 4 from by omega]
      rw [writeWord_same]
      omega
    · rw [show sumSizes bs1' + (L.natAbs + b.natAbs + R.natAbs)
          = sumSizes bs1' + L.natAbs + b.natAbs + R.natAbs from by omega]
      refine layoutSeg_congr hl4 (fun x hx1 hx2 => ?_)
      rw [writeWord_other _ _ _ (by omega), writeWord_other _ _ _ (by omega),
        writeWord_other _ _ _ (by omega), writeWord_other _ _ _ (by omega),
        writeWord_other _ _ _ (by omega), writeWord_other _ _ _ (by omega)]

/-! ## Reachable arena states and their invariants -/

/-- No two address-adjacent blocks are both free. -/
def noAdjFree (bs : List Int) : Prop :=
  List.Chain' (fun x y => ¬(0 < x ∧ 0 < y)) bs

/-- Number of allocated (negative) blocks. -/
def countNeg (bs : List Int) : Nat := bs.countP (fun b => decide (b < 0))

@[simp] theorem countNeg_nil : countNeg [] = 0 := rfl

theorem countNeg_cons_neg {b : Int} (l : List Int) (h : b < 0) :
    countNeg (b :: l) = countNeg l + 1 := by
  simp [countNeg, List.countP_cons, h]

theorem countNeg_cons_nonneg {b : Int} (l : List Int) (h : ¬b < 0) :
    countNeg (b :: l) = countNeg l := by
  simp [countNeg, List.countP_cons, h]

theorem countNeg_append (l1 l2 : List Int) :
    countNeg (l1 ++ l2) = countNeg l1 + countNeg l2 := by
  simp [countNeg, List.countP_append]

theorem noAdjFree_build {bs1 bs2 : List Int} {c : Int}
    (h1 : noAdjFree bs1) (h2 : noAdjFree bs2)
    (hb1 : ∀ x ∈ bs1.getLast?, ¬(0 < x ∧ 0 < c))
    (hb2 : ∀ y ∈ bs2.head?, ¬(0 < c ∧ 0 < y)) :
    noAdjFree (bs1 ++ c :: bs2) := by
  unfold noAdjFree at h1 h2 ⊢
  rw [List.chain'_append]
  refine ⟨h1, ?_, ?_⟩
  · rw [List.chain'_cons']
    exact ⟨hb2, h2⟩
  · intro x hx y hy
    simp only [List.head?_cons, Option.mem_def, Option.some.injEq] at hy
    subst hy
    exact hb1 x hx

theorem noAdjFree_destruct {bs1 bs2 : List Int} {c : Int}
    (h : noAdjFree (bs1 ++ c :: bs2)) :
    noAdjFree bs1 ∧ noAdjFree bs2 ∧
      (∀ x ∈ bs1.getLast?, ¬(0 < x ∧ 0 < c)) ∧
      (∀ y ∈ bs2.head?, ¬(0 < c ∧ 0 < y)) := by
  unfold noAdjFree at h ⊢
  rw [List.chain'_append, List.chain'_cons'] at h
  obtain ⟨h1, ⟨hb2, h2⟩, hb⟩ := h
  refine ⟨h1, h2, ?_, hb2⟩
  intro x hx
  exact hb x hx c (by simp)

/-- Precondition of `Free(p)`: `p` is the payload pointer of an allocated
block of the arena, i.e. one word past the header of a block whose tag is
negative. -/
def ValidFree (a : Arena) (p : Nat) : Prop :=
  ∃ bs1 b bs2, LayoutSeg a.mem 0 (bs1 ++ b :: bs2) a.memSize ∧ b < 0 ∧
    p = sumSizes bs1 + 4

/-- Arena states reachable from `init_myalloc` by completed `myalloc` and
`myfree` calls respecting the documented preconditions.  `nA` counts the
successful allocations performed so far and `nF` the frees. -/
inductive Reach (C : Nat) : Arena → Nat → Nat → Prop
  | init (m0 : Mem) (hC : 8 ≤ C) : Reach C (init_myalloc C m0) 0 0
  | alloc (a : Arena) (nA nF : Nat) (size : Int) (p : Nat)
      (h : Reach C a nA nF) (hs : 0 < size)
      (hp : (myalloc a size).ptr = some p) :
      Reach C (myalloc a size).arena (nA + 1) nF
  | free (a : Arena) (nA nF : Nat) (p : Nat)
      (h : Reach C a nA nF) (hv : ValidFree a p) :
      Reach C (myfree a p) nA (nF + 1)

/-- A successful allocation preserves the arena invariants and allocates
exactly one more block. -/
theorem myalloc_inv (a : Arena) (bs : List Int) (size : Int) (p : Nat)
    (hlay : LayoutSeg a.mem 0 bs a.memSize) (hne : bs ≠ [])
    (hadj : noAdjFree bs) (hs : 0 < size)
    (hp : (myalloc a size).ptr = some p) :
    (myalloc a size).arena.memSize = a.memSize ∧
    ∃ bs', LayoutSeg (myalloc a size).arena.mem 0 bs' a.memSize ∧
      bs' ≠ [] ∧ sumSizes bs' = sumSizes bs ∧ noAdjFree bs' ∧
      countNeg bs' = countNeg bs + 1 := by
  have hbe := best_fit_block_eq size hlay hne
  rcases hfind : best_fit_block a size with _ | q
  · rw [hfind] at hbe
    simp [myalloc, hfind] at hp
  · rw [hfind] at hbe
    rcases habs : bestAbs size bs 0 none with _ | pr
    · rw [habs] at hbe
      cases hbe
    · obtain ⟨q', v⟩ := pr
      rw [habs] at hbe
      simp only [Option.map_some', Option.some.injEq] at hbe
      rcases bestAbs_spec size bs 0 none q' v habs with ⟨hacc, _⟩ |
        ⟨bs1, bs2, hbs, hq, helig, _, _, _⟩
      · cases hacc
      · subst hbs
        rw [Nat.zero_add] at hq
        subst hq
        subst hbe
        have hv8 : size + 8 ≤ (v.natAbs : Int) := helig.1
        have hvpos : 0 < v := helig.2
        obtain ⟨hadj1, hadj2, hlast, hhead⟩ := noAdjFree_destruct hadj
        by_cases hsp : size + 16 ≤ (v.natAbs : Int)
        · have hms : (myalloc a size).arena.memSize = a.memSize := by
            rw [myalloc_split_eq a bs1 bs2 v size hlay hs hfind hsp]
          refine ⟨hms, bs1 ++ (-(size + 2 * 4)) ::
            ((v.natAbs : Int) - (size + 2 * 4)) :: bs2, ?_, by simp, ?_, ?_, ?_⟩
          · exact myalloc_split_layout a bs1 bs2 v size hlay hs hfind hsp
          · simp only [sumSizes_append, sumSizes_cons]
            omega
          · refine noAdjFree_build hadj1 ?_ ?_ ?_
            · unfold noAdjFree
              rw [List.chain'_cons']
              refine ⟨?_, hadj2⟩
              intro y hy
              have := hhead y hy
              rintro ⟨-, hy2⟩
              exact this ⟨hvpos, hy2⟩
            · rintro x hx ⟨-, hc⟩
              omega
            · rintro y hy ⟨hc, -⟩
              omega
          · rw [countNeg_append, countNeg_append,
              countNeg_cons_neg _ (by omega),
              countNeg_cons_nonneg _ (by omega),
              countNeg_cons_nonneg _ (by omega)]
            omega
        · have hms : (myalloc a size).arena.memSize = a.memSize := by
            rw [myalloc_nosplit_eq a bs1 bs2 v size hlay hs hfind (by omega)]
          refine ⟨hms, bs1 ++ (-v) :: bs2, ?_, by simp, ?_, ?_, ?_⟩
          · exact myalloc_nosplit_layout a bs1 bs2 v size hlay hs hfind
              (by omega)
          · simp only [sumSizes_append, sumSizes_cons, Int.natAbs_neg]
          · refine noAdjFree_build hadj1 hadj2 ?_ ?_
            · rintro x hx ⟨-, hc⟩
              omega
            · rintro y hy ⟨hc, -⟩
              omega
          · rw [countNeg_append, countNeg_append,
              countNeg_cons_neg _ (by omega),
              countNeg_cons_nonneg _ (by omega)]
            omega

/-- Freeing an allocated block preserves the arena invariants, frees
exactly one block, and leaves no pair of adjacent free blocks. -/
theorem myfree_inv (a : Arena) (bs1 bs2 : List Int) (b : Int)
    (hlf : LayoutSeg a.mem 0 (bs1 ++ b :: bs2) a.memSize)
    (hb : b < 0)
    (hadj : noAdjFree (bs1 ++ b :: bs2)) :
    (myfree a (sumSizes bs1 + 4)).memSize = a.memSize ∧
    ∃ bs', LayoutSeg (myfree a (sumSizes bs1 + 4)).mem 0 bs' a.memSize ∧
      bs' ≠ [] ∧ sumSizes bs' = sumSizes (bs1 ++ b :: bs2) ∧
      noAdjFree bs' ∧ countNeg bs' + 1 = countNeg (bs1 ++ b :: bs2) := by
  obtain ⟨hadj1, hadj2, hlast, hhead⟩ := noAdjFree_destruct hadj
  have hmin : ∀ c ∈ bs1 ++ b :: bs2, 8 ≤ c.natAbs := layoutSeg_min hlf
  have hleftC : (bs1 = [] ∨ ∃ bs1' L, bs1 = bs1' ++ [L] ∧ L < 0) ∨
      (∃ bs1' L, bs1 = bs1' ++ [L] ∧ 0 < L) := by
    rcases List.eq_nil_or_concat bs1 with hnil | ⟨bs1', L, hconc⟩
    · exact Or.inl (Or.inl hnil)
    · rw [List.concat_eq_append] at hconc
      have hL8 : 8 ≤ L.natAbs := hmin L (by rw [hconc]; simp)
      rcases lt_trichotomy L 0 with h | h | h
      · exact Or.inl (Or.inr ⟨bs1', L, hconc, h⟩)
      · exact (by omega : False).elim
      · exact Or.inr ⟨bs1', L, hconc, h⟩
  have hrightC : (bs2 = [] ∨ ∃ R bs2', bs2 = R :: bs2' ∧ R < 0) ∨
      (∃ R bs2', bs2 = R :: bs2' ∧ 0 < R) := by
    cases bs2 with
    | nil => exact Or.inl (Or.inl rfl)
    | cons R bs2' =>
        have hR8 : 8 ≤ R.natAbs := hmin R (by simp)
        rcases lt_trichotomy R 0 with h | h | h
        · exact Or.inl (Or.inr ⟨R, bs2', rfl, h⟩)
        · exact (by omega : False).elim
        · exact Or.inr ⟨R, bs2', rfl, h⟩
  rcases hleftC with hnl | ⟨bs1', L, rfl, hLpos⟩ <;>
    rcases hrightC with hnr | ⟨R, bs2', rfl, hRpos⟩
  · -- no coalescing
    obtain ⟨hms, hLay⟩ := myfree_layout_nn a bs1 bs2 b hlf hb hnl hnr
    refine ⟨hms, bs1 ++ (-b) :: bs2, hLay, by simp, ?_, ?_, ?_⟩
    · simp [sumSizes_append, sumSizes_cons, Int.natAbs_neg]
    · refine noAdjFree_build hadj1 hadj2 ?_ ?_
      · intro x hx
        rintro ⟨hx1, -⟩
        rcases hnl with rfl | ⟨bs1'', L', rfl, hL'⟩
        · simp at hx
        · rw [List.getLast?_concat] at hx
          simp only [Option.mem_def, Option.some.injEq] at hx
          subst hx
          omega
      · intro y hy
        rintro ⟨-, hy1⟩
        rcases hnr with rfl | ⟨R', bs2'', rfl, hR'⟩
        · simp at hy
        · simp only [List.head?_cons, Option.mem_def, Option.some.injEq] at hy
          subst hy
          omega
    · rw [countNeg_append, countNeg_append,
        countNeg_cons_neg _ hb, countNeg_cons_nonneg _ (by omega)]
      omega
  · -- right neighbour free
    obtain ⟨hms, hLay⟩ := myfree_layout_nr a bs1 bs2' b R hlf hb hRpos hnl
    have hRtail : noAdjFree bs2' ∧ ∀ y ∈ bs2'.head?, ¬(0 < R ∧ 0 < y) := by
      unfold noAdjFree at hadj2 ⊢
      rw [List.chain'_cons'] at hadj2
      exact ⟨hadj2.2, hadj2.1⟩
    refine ⟨hms, bs1 ++ (R - b) :: bs2', hLay, by simp, ?_, ?_, ?_⟩
    · simp only [sumSizes_append, sumSizes_cons]
      omega
    · refine noAdjFree_build hadj1 hRtail.1 ?_ ?_
      · intro x hx
        rintro ⟨hx1, -⟩
        rcases hnl with rfl | ⟨bs1'', L', rfl, hL'⟩
        · simp at hx
        · rw [List.getLast?_concat] at hx
          simp only [Option.mem_def, Option.some.injEq] at hx
          subst hx
          omega
      · intro y hy
        rintro ⟨-, hy1⟩
        exact hRtail.2 y hy ⟨hRpos, hy1⟩
    · rw [countNeg_append, countNeg_append,
        countNeg_cons_neg _ hb, countNeg_cons_nonneg _ (by omega),
        countNeg_cons_nonneg _ (by omega)]
      omega
  · -- left neighbour free
    have hso : sumSizes (bs1' ++ [L]) = sumSizes bs1' + L.natAbs := by simp
    rw [hso]
    obtain ⟨hms, hLay⟩ := myfree_layout_ln a bs1' bs2 L b hlf hb hLpos hnr
    obtain ⟨hadj1a, -, hlast1, -⟩ :=
      @noAdjFree_destruct bs1' [] L (by simpa using hadj1)
    refine ⟨hms, bs1' ++ (L - b) :: bs2, hLay, by simp, ?_, ?_, ?_⟩
    · simp only [sumSizes_append, sumSizes_cons, sumSizes_nil]
      omega
    · refine noAdjFree_build hadj1a hadj2 ?_ ?_
      · intro x hx
        rintro ⟨hx1, -⟩
        exact hlast1 x hx ⟨hx1, hLpos⟩
      · intro y hy
        rintro ⟨-, hy1⟩
        rcases hnr with rfl | ⟨R', bs2'', rfl, hR'⟩
        · simp at hy
        · simp only [List.head?_cons, Option.mem_def, Option.some.injEq] at hy
          subst hy
          omega
    · rw [countNeg_append, countNeg_append, countNeg_append,
        countNeg_cons_neg _ hb,
        countNeg_cons_nonneg (b := L) [] (by omega), countNeg_nil,
        countNeg_cons_nonneg (b := L - b) bs2 (by omega)]
      omega
  · -- both neighbours free
    have hso : sumSizes (bs1' ++ [L]) = sumSizes bs1' + L.natAbs := by simp
    rw [hso]
    obtain ⟨hms, hLay⟩ := myfree_layout_lr a bs1' bs2' L b R hlf hb hLpos hRpos
    obtain ⟨hadj1a, -, hlast1, -⟩ :=
      @noAdjFree_destruct bs1' [] L (by simpa using hadj1)
    have hRtail : noAdjFree bs2' ∧ ∀ y ∈ bs2'.head?, ¬(0 < R ∧ 0 < y) := by
      unfold noAdjFree at hadj2 ⊢
      rw [List.chain'_cons'] at hadj2
      exact ⟨hadj2.2, hadj2.1⟩
    refine ⟨hms, bs1' ++ (L - b + R) :: bs2', hLay, by simp, ?_, ?_, ?_⟩
    · simp only [sumSizes_append, sumSizes_cons, sumSizes_nil]
      omega
    · refine noAdjFree_build hadj1a hRtail.1 ?_ ?_
      · intro x hx
        rintro ⟨hx1, -⟩
        exact hlast1 x hx ⟨hx1, hLpos⟩
      · intro y hy
        rintro ⟨-, hy1⟩
        exact hRtail.2 y hy ⟨hRpos, hy1⟩
    · rw [countNeg_append, countNeg_append, countNeg_append,
        countNeg_cons_neg _ hb,
        countNeg_cons_nonneg (b := L) [] (by omega), countNeg_nil,
        countNeg_cons_nonneg (b := L - b + R) bs2' (by omega),
        countNeg_cons_nonneg (b := R) bs2' (by omega)]
      omega

/-- Master invariant of reachable arena states: the arena always carries a
block layout tiling `[0, C)` exactly, whose sizes sum to `C`, with no two
adjacent free blocks, and with exactly `nA - nF` allocated blocks. -/
theorem reach_inv {C : Nat} {a : Arena} {nA nF : Nat} (h : Reach C a nA nF) :
    a.memSize = C ∧ ∃ bs, LayoutSeg a.mem 0 bs a.memSize ∧ bs ≠ [] ∧
      sumSizes bs = C ∧ noAdjFree bs ∧ countNeg bs + nF = nA := by
  induction h with
  | init m0 hC =>
      refine ⟨rfl, [(C : Int)], ?_, by simp, ?_, ?_, ?_⟩
      · simp only [init_myalloc, Arena_mem_mk, Arena_memSize_mk]
        rw [layoutSeg_cons, Int.natAbs_ofNat, layoutSeg_nil]
        refine ⟨by omega, ?_, ?_, by omega⟩
        · rw [writeWord_other _ _ _ (by omega), writeWord_same]
        · rw [show (0 : Nat) + C - 4 = C - 4 from by omega, writeWord_same]
      · simp [sumSizes]
      · unfold noAdjFree
        exact List.chain'_singleton _
      · rw [countNeg_cons_nonneg _ (by omega), countNeg_nil]
  | alloc a nA nF size p hre hs hp ih =>
      obtain ⟨hms, bs, hlay, hne, hsum, hadj, hcnt⟩ := ih
      obtain ⟨hms', bs', hlay', hne', hsum', hadj', hcnt'⟩ :=
        myalloc_inv a bs size p hlay hne hadj hs hp
      refine ⟨hms'.trans hms, bs', by rw [hms']; exact hlay', hne',
        by omega, hadj', by omega⟩
  | free a nA nF p hre hv ih =>
      obtain ⟨hms, bs, hlay, hne, hsum, hadj, hcnt⟩ := ih
      obtain ⟨bs1, b, bs2, hlf, hbneg, hp⟩ := hv
      have hbs : bs = bs1 ++ b :: bs2 := layoutSeg_unique hlay hlf
      subst hbs
      subst hp
      obtain ⟨hms', bs', hlay', hne', hsum', hadj', hcnt'⟩ :=
        myfree_inv a bs1 bs2 b hlf hbneg hadj
      refine ⟨hms'.trans hms, bs', by rw [hms']; exact hlay', hne',
        by omega, hadj', by omega⟩

/-! ## The claims -/

/-- C1: for every call `Allocate(size)` with `size > 0` on a consistent
arena, a block is an eligible candidate iff its tag is positive (free) and
its total size magnitude is at least `size + 2*wordSize` (`elig`); when
`best_fit_block` returns a null pointer no block is eligible and
conversely; when it returns a block, that block is eligible, no eligible
block anywhere is strictly smaller, and every eligible block before it
(lower address) is strictly larger — i.e. the scan keeps the smallest
candidate of a single linear pass and breaks ties in favour of the first,
replacing only on strict improvement. -/
theorem claim_C1 (a : Arena) (bs : List Int) (size : Int)
    (hl : LayoutSeg a.mem 0 bs a.memSize) (hne : bs ≠ []) (hs : 0 < size) :
    (best_fit_block a size = none ↔ ∀ b ∈ bs, ¬ elig size b) ∧
    ∀ q, best_fit_block a size = some q →
      ∃ bs1 b bs2, bs = bs1 ++ b :: bs2 ∧ q = sumSizes bs1 ∧ elig size b ∧
        (∀ c ∈ bs, elig size c → b.natAbs ≤ c.natAbs) ∧
        (∀ c ∈ bs1, elig size c → b.natAbs < c.natAbs) := by
  rw [best_fit_block_eq size hl hne]
  constructor
  · rw [Option.map_eq_none']
    rw [bestAbs_eq_none size bs 0 none]
    simp
  · intro q hq
    rcases habs : bestAbs size bs 0 none with _ | pr
    · rw [habs] at hq
      cases hq
    · obtain ⟨q', v⟩ := pr
      rw [habs] at hq
      simp only [Option.map_some', Option.some.injEq] at hq
      subst hq
      rcases bestAbs_spec size bs 0 none q' v habs with ⟨hacc, -⟩ |
        ⟨bs1, bs2, hbs, hq', helig, -, hfst, hrest⟩
      · cases hacc
      · refine ⟨bs1, v, bs2, hbs, by omega, helig, ?_, hfst⟩
        intro c hc hce
        subst hbs
        rcases List.mem_append.1 hc with hc1 | hc2
        · exact le_of_lt (hfst c hc1 hce)
        · rcases List.mem_cons.1 hc2 with rfl | hc3
          · exact le_refl _
          · exact hrest c hc3 hce

/-- Witness for C1 at the spec's own example: free blocks of sizes 64 and
128, request of 50 payload bytes; the scan returns the 64-byte block at
offset 0. -/
theorem claim_C1_witness :
    best_fit_block
      ⟨192, writeWord (writeWord (writeWord (writeWord (fun _ => 0)
        0 64) 60 64) 64 128) 188 128⟩ 50 = some 0 ∧
    ∃ bs1 b bs2, ([64, 128] : List Int) = bs1 ++ b :: bs2 ∧
      0 = sumSizes bs1 ∧ elig 50 b ∧
      (∀ c ∈ ([64, 128] : List Int), elig 50 c → b.natAbs ≤ c.natAbs) ∧
      (∀ c ∈ bs1, elig 50 c → b.natAbs < c.natAbs) :=
  ⟨by decide,
    (claim_C1
      ⟨192, writeWord (writeWord (writeWord (writeWord (fun _ => 0)
        0 64) 60 64) 64 128) 188 128⟩ [64, 128] 50
      (by decide) (by decide) (by decide)).2 0 (by decide)⟩

/-- C2: a successful allocation splits the chosen block (of signed size
`b`, total `b.natAbs` bytes) iff `b.natAbs ≥ size + 4*wordSize`.  On a
split, header and footer of the allocated block both hold
`-(size + 2*wordSize)` and a remainder free block immediately after holds
`b.natAbs - (size + 2*wordSize)` positive in its header and footer;
otherwise the whole block is allocated in place with its size unchanged,
header and footer negated. -/
theorem claim_C2 (a : Arena) (bs1 bs2 : List Int) (b size : Int)
    (hl : LayoutSeg a.mem 0 (bs1 ++ b :: bs2) a.memSize)
    (hs : 0 < size)
    (hfind : best_fit_block a size = some (sumSizes bs1)) :
    (size + 16 ≤ (b.natAbs : Int) →
      (myalloc a size).ptr = some (sumSizes bs1 + 4) ∧
      LayoutSeg (myalloc a size).arena.mem 0
        (bs1 ++ (-(size + 8)) :: ((b.natAbs : Int) - (size + 8)) :: bs2)
        a.memSize) ∧
    ((b.natAbs : Int) < size + 16 →
      (myalloc a size).ptr = some (sumSizes bs1 + 4) ∧
      LayoutSeg (myalloc a size).arena.mem 0 (bs1 ++ (-b) :: bs2)
        a.memSize) := by
  have h24 : (size + 8 : Int) = size + 2 * 4 := by norm_num
  constructor
  · intro hsp
    rw [h24]
    refine ⟨?_, myalloc_split_layout a bs1 bs2 b size hl hs hfind hsp⟩
    rw [myalloc_split_eq a bs1 bs2 b size hl hs hfind hsp]
  · intro hns
    refine ⟨?_, myalloc_nosplit_layout a bs1 bs2 b size hl hs hfind hns⟩
    rw [myalloc_nosplit_eq a bs1 bs2 b size hl hs hfind hns]

/-- Witness for C2 at the spec's example: `Init(128)` then `Allocate(20)`
splits the single 128-byte free block into an allocated 28-byte block and
a 100-byte free remainder. -/
theorem claim_C2_witness :
    (myalloc (init_myalloc 128 (fun _ => 0)) 20).ptr
      = some (sumSizes [] + 4) ∧
    LayoutSeg (myalloc (init_myalloc 128 (fun _ => 0)) 20).arena.mem 0
      ([] ++ (-(20 + 8)) :: ((((128 : Int).natAbs : Int)) - (20 + 8)) :: [])
      (init_myalloc 128 (fun _ => 0)).memSize :=
  (claim_C2 (init_myalloc 128 (fun _ => 0)) [] [] 128 20
    (by decide) (by decide) (by decide)).1 (by decide)

/-- C3: the no-adjacent-free property holds after every completed public
operation — every state reachable by `Init` and completed `Allocate`/`Free`
calls carries a block layout with no two adjacent free blocks — and in
particular, after any `Free(p)` whose argument satisfies the documented
precondition, the freed block and its neighbours have been coalesced so
that the resulting arena's block list again has no two adjacent free
blocks. -/
theorem claim_C3 (C : Nat) (a : Arena) (nA nF : Nat)
    (hre : Reach C a nA nF) :
    (∃ bs, LayoutSeg a.mem 0 bs a.memSize ∧ noAdjFree bs) ∧
    ∀ p, ValidFree a p →
      ∃ bs, LayoutSeg (myfree a p).mem 0 bs (myfree a p).memSize ∧
        noAdjFree bs := by
  constructor
  · obtain ⟨-, bs, hlay, -, -, hadj, -⟩ := reach_inv hre
    exact ⟨bs, hlay, hadj⟩
  · intro p hv
    obtain ⟨-, bs, hlay, -, -, hadj, -⟩ :=
      reach_inv (Reach.free a nA nF p hre hv)
    exact ⟨bs, hlay, hadj⟩

/-- Witness for C3: after the completed `Allocate(20)` on `Init(128)` the
layout has no adjacent free blocks, and the same holds after the `Free` of
the returned pointer. -/
theorem claim_C3_witness :
    (∃ bs, LayoutSeg (myalloc (init_myalloc 128 (fun _ => 0)) 20).arena.mem
      0 bs (myalloc (init_myalloc 128 (fun _ => 0)) 20).arena.memSize ∧
      noAdjFree bs) ∧
    (∃ bs, LayoutSeg
      (myfree (myalloc (init_myalloc 128 (fun _ => 0)) 20).arena 4).mem 0 bs
      (myfree (myalloc (init_myalloc 128 (fun _ => 0)) 20).arena 4).memSize ∧
      noAdjFree bs) :=
  ⟨(claim_C3 128 (myalloc (init_myalloc 128 (fun _ => 0)) 20).arena 1 0
      (Reach.alloc (init_myalloc 128 (fun _ => 0)) 0 0 20 4
        (Reach.init (fun _ => 0) (by omega)) (by decide) (by decide))).1,
   (claim_C3 128 (myalloc (init_myalloc 128 (fun _ => 0)) 20).arena 1 0
      (Reach.alloc (init_myalloc 128 (fun _ => 0)) 0 0 20 4
        (Reach.init (fun _ => 0) (by omega)) (by decide) (by decide))).2 4
      ⟨[], -28, [100], by decide, by decide, by decide⟩⟩

/-- C4: in every reachable state the blocks tile the arena `[0, C)` exactly
once with no gaps or overlaps (`LayoutSeg` from offset 0 to the arena end),
and the sum of the block size magnitudes equals the initial capacity. -/
theorem claim_C4 (C : Nat) (a : Arena) (nA nF : Nat)
    (hre : Reach C a nA nF) :
    a.memSize = C ∧
    ∃ bs, LayoutSeg a.mem 0 bs a.memSize ∧ sumSizes bs = C := by
  obtain ⟨hms, bs, hlay, -, hsum, -, -⟩ := reach_inv hre
  exact ⟨hms, bs, hlay, hsum⟩

/-- Witness for C4 after an allocation from `Init(128)`. -/
theorem claim_C4_witness :
    (myalloc (init_myalloc 128 (fun _ => 0)) 20).arena.memSize = 128 ∧
    ∃ bs, LayoutSeg (myalloc (init_myalloc 128 (fun _ => 0)) 20).arena.mem 0
      bs (myalloc (init_myalloc 128 (fun _ => 0)) 20).arena.memSize ∧
      sumSizes bs = 128 :=
  claim_C4 128 (myalloc (init_myalloc 128 (fun _ => 0)) 20).arena 1 0
    (Reach.alloc (init_myalloc 128 (fun _ => 0)) 0 0 20 4
      (Reach.init (fun _ => 0) (by omega)) (by decide) (by decide))

/-- C5: in any reachable state in which every successful allocation has
been matched by a free (`nA = nF`, i.e. every returned pointer was
eventually passed to `Free`), the arena is back to a single free block
spanning the whole capacity, with header and footer both `+C` — the exact
layout established by `init_myalloc`. -/
theorem claim_C5 (C : Nat) (a : Arena) (n : Nat) (hre : Reach C a n n) :
    a.memSize = C ∧ LayoutSeg a.mem 0 [(C : Int)] a.memSize := by
  obtain ⟨hms, bs, hlay, hne, hsum, hadj, hcnt⟩ := reach_inv hre
  have hc0 : countNeg bs = 0 := by omega
  have hpos : ∀ b ∈ bs, 0 < b := by
    intro b hbmem
    have h8 := layoutSeg_min hlay b hbmem
    have hnn : ¬(b < 0) := by
      have := List.countP_eq_zero.1 hc0 b hbmem
      simpa using this
    omega
  refine ⟨hms, ?_⟩
  cases bs with
  | nil => exact absurd rfl hne
  | cons x t =>
      cases t with
      | nil =>
          have hx := hpos x (List.mem_cons_self x [])
          have hxc : x = (C : Int) := by
            simp only [sumSizes_cons, sumSizes_nil] at hsum
            omega
          rwa [hxc] at hlay
      | cons y t' =>
          exfalso
          have hx := hpos x (by simp)
          have hy := hpos y (by simp)
          unfold noAdjFree at hadj
          rw [List.chain'_cons] at hadj
          exact hadj.1 ⟨hx, hy⟩

/-- Witness for C5, the spec's end-to-end example: `Init(128)`,
`p = Allocate(20)` (allocated block 28, remainder 100, payload pointer 4),
`Free(p)` — the arena is a single `+128` block again. -/
theorem claim_C5_witness :
    (myalloc (init_myalloc 128 (fun _ => 0)) 20).ptr = some 4 ∧
    LayoutSeg (myalloc (init_myalloc 128 (fun _ => 0)) 20).arena.mem 0
      [-28, 100] 128 ∧
    LayoutSeg
      (myfree (myalloc (init_myalloc 128 (fun _ => 0)) 20).arena 4).mem 0
      [(128 : Int)]
      (myfree (myalloc (init_myalloc 128 (fun _ => 0)) 20).arena 4).memSize :=
  ⟨by decide, by decide,
    (claim_C5 128
      (myfree (myalloc (init_myalloc 128 (fun _ => 0)) 20).arena 4) 1
      (Reach.free (myalloc (init_myalloc 128 (fun _ => 0)) 20).arena 1 0 4
        (Reach.alloc (init_myalloc 128 (fun _ => 0)) 0 0 20 4
          (Reach.init (fun _ => 0) (by omega)) (by decide) (by decide))
        ⟨[], -28, [100], by decide, by decide, by decide⟩)).2⟩

/-- C6: when no block of the arena is eligible for `size`, `myalloc`
returns the null pointer, reports the requested size on the diagnostic
channel, and returns the arena completely unchanged. -/
theorem claim_C6 (a : Arena) (bs : List Int) (size : Int)
    (hl : LayoutSeg a.mem 0 bs a.memSize) (hne : bs ≠ []) (hs : 0 < size)
    (hnone : ∀ b ∈ bs, ¬ elig size b) :
    myalloc a size = ⟨none, a, some size⟩ ∧
    ∀ x, (myalloc a size).arena.mem x = a.mem x := by
  have hfind : best_fit_block a size = none := by
    rw [best_fit_block_eq size hl hne, Option.map_eq_none']
    exact (bestAbs_eq_none size bs 0 none).2 ⟨rfl, hnone⟩
  constructor
  · simp [myalloc, hfind]
  · intro x
    simp [myalloc, hfind]

/-- Witness for C6: after `Init(128)` and `Allocate(120)` the arena is one
allocated 128-byte block; `Allocate(10)` fails, reports 10, and leaves the
arena unchanged. -/
theorem claim_C6_witness :
    myalloc (myalloc (init_myalloc 128 (fun _ => 0)) 120).arena 10 =
      ⟨none, (myalloc (init_myalloc 128 (fun _ => 0)) 120).arena, some 10⟩ :=
  (claim_C6 (myalloc (init_myalloc 128 (fun _ => 0)) 120).arena [-128] 10
    (by decide) (by decide) (by decide) (by decide)).1

/-- C7 counterexample: the claim asserts a 3-word (12-byte) floor on block
sizes and on split remainders, but `Init(128)` followed by
`Allocate(112)` is a reachable state whose layout is an allocated 120-byte
block followed by a free block of total size 8 — two tag words with zero
payload, below the claimed floor. -/
theorem claim_C7_counterexample :
    Reach 128 (myalloc (init_myalloc 128 (fun _ => 0)) 112).arena 1 0 ∧
    LayoutSeg (myalloc (init_myalloc 128 (fun _ => 0)) 112).arena.mem 0
      [-120, 8] 128 ∧
    ¬(3 * 4 ≤ (8 : Int).natAbs) :=
  ⟨Reach.alloc (init_myalloc 128 (fun _ => 0)) 0 0 112 4
    (Reach.init (fun _ => 0) (by omega)) (by decide) (by decide),
   by decide, by decide⟩

/-- C7 as amended: after every completed public operation every block's
size magnitude is at least the minimum representable block size of two tag
words, `2*wordSize = 8` bytes (a split may create a remainder of exactly
one header plus one footer with no payload word, so 8 bytes is the true
floor, not 12). -/
theorem claim_C7 (C : Nat) (a : Arena) (nA nF : Nat)
    (hre : Reach C a nA nF) :
    ∃ bs, LayoutSeg a.mem 0 bs a.memSize ∧ ∀ b ∈ bs, 2 * 4 ≤ b.natAbs := by
  obtain ⟨-, bs, hlay, -, -, -, -⟩ := reach_inv hre
  exact ⟨bs, hlay, fun b hb => layoutSeg_min hlay b hb⟩

/-- Witness for the amended C7, at the very state of the counterexample:
the 8-byte remainder meets the two-word floor. -/
theorem claim_C7_witness :
    ∃ bs, LayoutSeg (myalloc (init_myalloc 128 (fun _ => 0)) 112).arena.mem
      0 bs (myalloc (init_myalloc 128 (fun _ => 0)) 112).arena.memSize ∧
      ∀ b ∈ bs, 2 * 4 ≤ b.natAbs :=
  claim_C7 128 (myalloc (init_myalloc 128 (fun _ => 0)) 112).arena 1 0
    (Reach.alloc (init_myalloc 128 (fun _ => 0)) 0 0 112 4
      (Reach.init (fun _ => 0) (by omega)) (by decide) (by decide))

/-- C8: every pointer returned by a successful allocation is the first
payload byte of the chosen block — one word past that block's header — and
in the post-state the block at that position is allocated with total size
at least `size + 2*wordSize`, i.e. at least `size` usable payload bytes
between its header and footer. -/
theorem claim_C8 (a : Arena) (bs : List Int) (size : Int) (p : Nat)
    (hl : LayoutSeg a.mem 0 bs a.memSize) (hne : bs ≠ []) (hs : 0 < size)
    (hp : (myalloc a size).ptr = some p) :
    ∃ bs1 b bs2, bs = bs1 ++ b :: bs2 ∧ p = sumSizes bs1 + 4 ∧
      ∃ c bs2', c < 0 ∧ size + 8 ≤ (c.natAbs : Int) ∧
        LayoutSeg (myalloc a size).arena.mem 0 (bs1 ++ c :: bs2')
          a.memSize := by
  have hbe := best_fit_block_eq size hl hne
  rcases hfind : best_fit_block a size with _ | q
  · rw [hfind] at hbe
    simp [myalloc, hfind] at hp
  · rw [hfind] at hbe
    rcases habs : bestAbs size bs 0 none with _ | pr
    · rw [habs] at hbe
      cases hbe
    · obtain ⟨q', v⟩ := pr
      rw [habs] at hbe
      simp only [Option.map_some', Option.some.injEq] at hbe
      rcases bestAbs_spec size bs 0 none q' v habs with ⟨hacc, -⟩ |
        ⟨bs1, bs2, hbs, hq, helig, -, -, -⟩
      · cases hacc
      · subst hbs
        rw [Nat.zero_add] at hq
        subst hq
        subst hbe
        have hv8 : size + 8 ≤ (v.natAbs : Int) := helig.1
        have hvpos : 0 < v := helig.2
        by_cases hsp : size + 16 ≤ (v.natAbs : Int)
        · rw [myalloc_split_eq a bs1 bs2 v size hl hs hfind hsp] at hp
          simp only [AllocResult_ptr_mk, Option.some.injEq] at hp
          refine ⟨bs1, v, bs2, rfl, hp.symm, -(size + 2 * 4),
            ((v.natAbs : Int) - (size + 2 * 4)) :: bs2, by omega, by omega,
            myalloc_split_layout a bs1 bs2 v size hl hs hfind hsp⟩
        · rw [myalloc_nosplit_eq a bs1 bs2 v size hl hs hfind (by omega)]
            at hp
          simp only [AllocResult_ptr_mk, Option.some.injEq] at hp
          refine ⟨bs1, v, bs2, rfl, hp.symm, -v, bs2, by omega, by omega,
            myalloc_nosplit_layout a bs1 bs2 v size hl hs hfind (by omega)⟩

/-- Witness for C8 at `Init(128)`, `Allocate(20)`. -/
theorem claim_C8_witness :
    ∃ bs1 b bs2, ([128] : List Int) = bs1 ++ b :: bs2 ∧
      4 = sumSizes bs1 + 4 ∧
      ∃ c bs2', c < 0 ∧ (20 : Int) + 8 ≤ (c.natAbs : Int) ∧
        LayoutSeg (myalloc (init_myalloc 128 (fun _ => 0)) 20).arena.mem 0
          (bs1 ++ c :: bs2') (init_myalloc 128 (fun _ => 0)).memSize :=
  claim_C8 (init_myalloc 128 (fun _ => 0)) [128] 20 4
    (by decide) (by decide) (by decide) (by decide)

/-- C9: in every reachable state, for each block of the layout the header
word at its start and the footer word one word before its end hold the
same signed value — equal magnitude (the block's total size) and equal
sign (positive iff the block is free). -/
theorem claim_C9 (C : Nat) (a : Arena) (nA nF : Nat)
    (hre : Reach C a nA nF) :
    ∃ bs, LayoutSeg a.mem 0 bs a.memSize ∧
      ∀ bs1 b bs2, bs = bs1 ++ b :: bs2 →
        a.mem (sumSizes bs1) = b ∧
        a.mem (sumSizes bs1 + b.natAbs - 4) = b := by
  obtain ⟨-, bs, hlay, -, -, -, -⟩ := reach_inv hre
  refine ⟨bs, hlay, ?_⟩
  rintro bs1 b bs2 rfl
  obtain ⟨-, hm⟩ := layoutSeg_append.1 hlay
  rw [Nat.zero_add] at hm
  rw [layoutSeg_cons] at hm
  exact ⟨hm.2.1, hm.2.2.1⟩

/-- Witness for C9 after `Init(128)` and `Allocate(20)`. -/
theorem claim_C9_witness :
    ∃ bs, LayoutSeg (myalloc (init_myalloc 128 (fun _ => 0)) 20).arena.mem
      0 bs (myalloc (init_myalloc 128 (fun _ => 0)) 20).arena.memSize ∧
      ∀ bs1 b bs2, bs = bs1 ++ b :: bs2 →
        (myalloc (init_myalloc 128 (fun _ => 0)) 20).arena.mem
          (sumSizes bs1) = b ∧
        (myalloc (init_myalloc 128 (fun _ => 0)) 20).arena.mem
          (sumSizes bs1 + b.natAbs - 4) = b :=
  claim_C9 128 (myalloc (init_myalloc 128 (fun _ => 0)) 20).arena 1 0
    (Reach.alloc (init_myalloc 128 (fun _ => 0)) 0 0 20 4
      (Reach.init (fun _ => 0) (by omega)) (by decide) (by decide))

/-- Frame property of `myfree`: only the freed block's header and footer
words, the header word of a free left neighbour, and the footer word of a
free right neighbour can change. -/
theorem myfree_frame (a : Arena) (bs1 bs2 : List Int) (b : Int)
    (hlf : LayoutSeg a.mem 0 (bs1 ++ b :: bs2) a.memSize) (hb : b < 0) :
    ∀ x, x ≠ sumSizes bs1 → x ≠ sumSizes bs1 + b.natAbs - 4 →
      (∀ L ∈ bs1.getLast?, 0 < L → x ≠ sumSizes bs1 - L.natAbs) →
      (∀ R ∈ bs2.head?, 0 < R →
        x ≠ sumSizes bs1 + b.natAbs + R.natAbs - 4) →
      (myfree a (sumSizes bs1 + 4)).mem x = a.mem x := by
  intro x hx1 hx2 hxl hxr
  have hmin : ∀ c ∈ bs1 ++ b :: bs2, 8 ≤ c.natAbs := layoutSeg_min hlf
  have hleftC : (bs1 = [] ∨ ∃ bs1' L, bs1 = bs1' ++ [L] ∧ L < 0) ∨
      (∃ bs1' L, bs1 = bs1' ++ [L] ∧ 0 < L) := by
    rcases List.eq_nil_or_concat bs1 with hnil | ⟨bs1', L, hconc⟩
    · exact Or.inl (Or.inl hnil)
    · rw [List.concat_eq_append] at hconc
      have hL8 : 8 ≤ L.natAbs := hmin L (by rw [hconc]; simp)
      rcases lt_trichotomy L 0 with h | h | h
      · exact Or.inl (Or.inr ⟨bs1', L, hconc, h⟩)
      · exact (by omega : False).elim
      · exact Or.inr ⟨bs1', L, hconc, h⟩
  have hrightC : (bs2 = [] ∨ ∃ R bs2', bs2 = R :: bs2' ∧ R < 0) ∨
      (∃ R bs2', bs2 = R :: bs2' ∧ 0 < R) := by
    cases bs2 with
    | nil => exact Or.inl (Or.inl rfl)
    | cons R bs2' =>
        have hR8 : 8 ≤ R.natAbs := hmin R (by simp)
        rcases lt_trichotomy R 0 with h | h | h
        · exact Or.inl (Or.inr ⟨R, bs2', rfl, h⟩)
        · exact (by omega : False).elim
        · exact Or.inr ⟨R, bs2', rfl, h⟩
  rcases hleftC with hnl | ⟨bs1', L, rfl, hLpos⟩ <;>
    rcases hrightC with hnr | ⟨R, bs2', rfl, hRpos⟩
  · rw [myfree_eq_nn a bs1 bs2 b hlf hb hnl hnr]
    simp only [Arena_mem_mk]
    rw [writeWord_other _ _ _ hx2, writeWord_other _ _ _ hx1]
  · rw [myfree_eq_nr a bs1 bs2' b R hlf hb hRpos hnl]
    simp only [Arena_mem_mk]
    have hxFR : x ≠ sumSizes bs1 + b.natAbs + R.natAbs - 4 :=
      hxr R (by simp) hRpos
    rw [writeWord_other _ _ _ hxFR, writeWord_other _ _ _ hx1,
      writeWord_other _ _ _ hx2, writeWord_other _ _ _ hx1]
  · have hso : sumSizes (bs1' ++ [L]) = sumSizes bs1' + L.natAbs := by simp
    rw [hso]
    rw [hso] at hx1 hx2
    have hL8 : 8 ≤ L.natAbs := hmin L (by simp)
    have hxL : x ≠ sumSizes (bs1' ++ [L]) - L.natAbs :=
      hxl L (by rw [List.getLast?_concat]; rfl) hLpos
    rw [hso] at hxL
    rw [myfree_eq_ln a bs1' bs2 L b hlf hb hLpos hnr]
    simp only [Arena_mem_mk]
    rw [writeWord_other _ _ _ hx2, writeWord_other _ _ _ (by omega),
      writeWord_other _ _ _ hx2, writeWord_other _ _ _ hx1]
  · have hso : sumSizes (bs1' ++ [L]) = sumSizes bs1' + L.natAbs := by simp
    rw [hso]
    rw [hso] at hx1 hx2
    have hL8 : 8 ≤ L.natAbs := hmin L (by simp)
    have hxL : x ≠ sumSizes (bs1' ++ [L]) - L.natAbs :=
      hxl L (by rw [List.getLast?_concat]; rfl) hLpos
    rw [hso] at hxL
    have hxFR : x ≠ sumSizes (bs1' ++ [L]) + b.natAbs + R.natAbs - 4 :=
      hxr R (by simp) hRpos
    rw [hso] at hxFR
    rw [myfree_eq_lr a bs1' bs2' L b R hlf hb hLpos hRpos]
    simp only [Arena_mem_mk]
    rw [writeWord_other _ _ _ hxFR, writeWord_other _ _ _ (by omega),
      writeWord_other _ _ _ hx2, writeWord_other _ _ _ (by omega),
      writeWord_other _ _ _ hx2, writeWord_other _ _ _ hx1]

/-- C10: a successful allocation writes only the header and footer words of
the block it allocates and, when it splits, the header and footer words of
the remainder block; every other word of the arena — in particular every
payload byte of every allocated block — is unchanged.  A free writes only
the tag words of the freed block and of the (at most two) free neighbours
it merges with, and never any payload word. -/
theorem claim_C10 :
    (∀ (a : Arena) (bs1 bs2 : List Int) (b size : Int),
      LayoutSeg a.mem 0 (bs1 ++ b :: bs2) a.memSize → 0 < size →
      best_fit_block a size = some (sumSizes bs1) →
      ((size + 16 ≤ (b.natAbs : Int) →
        ∀ x, x ≠ sumSizes bs1 → x ≠ sumSizes bs1 + (size + 8).toNat - 4 →
          x ≠ sumSizes bs1 + (size + 8).toNat →
          x ≠ sumSizes bs1 + b.natAbs - 4 →
          (myalloc a size).arena.mem x = a.mem x) ∧
       ((b.natAbs : Int) < size + 16 →
        ∀ x, x ≠ sumSizes bs1 → x ≠ sumSizes bs1 + b.natAbs - 4 →
          (myalloc a size).arena.mem x = a.mem x))) ∧
    (∀ (a : Arena) (bs1 bs2 : List Int) (b : Int),
      LayoutSeg a.mem 0 (bs1 ++ b :: bs2) a.memSize → b < 0 →
      ∀ x, x ≠ sumSizes bs1 → x ≠ sumSizes bs1 + b.natAbs - 4 →
        (∀ L ∈ bs1.getLast?, 0 < L → x ≠ sumSizes bs1 - L.natAbs) →
        (∀ R ∈ bs2.head?, 0 < R →
          x ≠ sumSizes bs1 + b.natAbs + R.natAbs - 4) →
        (myfree a (sumSizes bs1 + 4)).mem x = a.mem x) := by
  constructor
  · intro a bs1 bs2 b size hl hs hfind
    constructor
    · intro hsp x hx1 hx2 hx3 hx4
      exact myalloc_split_frame a bs1 bs2 b size hl hs hfind hsp
        x hx1 hx2 hx3 hx4
    · intro hns x hx1 hx2
      exact myalloc_nosplit_frame a bs1 bs2 b size hl hs hfind hns x hx1 hx2
  · intro a bs1 bs2 b hl hb x hx1 hx2 hxl hxr
    exact myfree_frame a bs1 bs2 b hl hb x hx1 hx2 hxl hxr

/-- Witness for C10: in the `Init(128)`, `Allocate(20)` split, the payload
word at offset 48 (inside the remainder block) is untouched; and freeing
the allocated block leaves the word at offset 48 untouched as well. -/
theorem claim_C10_witness :
    (myalloc (init_myalloc 128 (fun _ => 0)) 20).arena.mem 48
      = (init_myalloc 128 (fun _ => 0)).mem 48 ∧
    (myfree (myalloc (init_myalloc 128 (fun _ => 0)) 20).arena
        (sumSizes ([] : List Int) + 4)).mem 48
      = (myalloc (init_myalloc 128 (fun _ => 0)) 20).arena.mem 48 :=
  ⟨(claim_C10.1 (init_myalloc 128 (fun _ => 0)) [] [] 128 20
      (by decide) (by decide) (by decide)).1 (by decide) 48
      (by decide) (by decide) (by decide) (by decide),
   claim_C10.2 (myalloc (init_myalloc 128 (fun _ => 0)) 20).arena [] [100]
      (-28) (by decide) (by decide) 48 (by decide) (by decide)
      (by simp) (by decide)⟩
